import Mathlib

/-!
# Verification of the volpiano-display-utilities core

This development shallowly embeds the core of the chant text/melody
alignment library: the Latin word syllabifier
(`latin_word_syllabification.py`), the chant-text sectioner/syllabifier
(`cantus_text_syllabification.py`), the volpiano sectioner/syllabifier
(`volpiano_syllabification.py`) and the aligner
(`text_volpiano_alignment.py`), together with the section data model
(`syllabified_section.py`).

Strings are modelled as `List Char`.  Python exceptions are modelled with
`Except PyErr`; code that cannot raise is modelled by total functions.
The regular expressions of the source are embedded as explicit scanners
that reproduce Python `re` semantics (leftmost match, alternation order,
lazy/greedy quantifiers, `.` not matching a newline, `$` at end of string
or before a final newline) for the concrete patterns used.  `\w` is
modelled as ASCII alphanumeric or underscore; the development only ever
evaluates character classes on ASCII data.
-/

set_option maxRecDepth 4000

deriving instance DecidableEq for Except

namespace VolpianoDisplay

/-- Python exceptions that the embedded code can raise.  `latinError` is the
`LatinError` subclass of `ValueError`; `valueError` covers the other
`ValueError`s raised directly; `indexError` is `IndexError`;
`repairNotConverged` is not a Python exception: it is the marker returned by
the fuelled model of the (unbounded) barline-inference `while` loop when its
fuel runs out, and the theorems below show it is unreachable. -/
inductive PyErr where
  | latinError
  | valueError
  | indexError
  | repairNotConverged
deriving DecidableEq, Repr

/-- Python slice `l[a:b]` for `0 ≤ a ≤ b` (and, like Python, empty when
`a ≥ b`). -/
def pyExtract (l : List Char) (a b : Nat) : List Char :=
  (l.drop a).take (b - a)

/-- Python slice `l[-n:]`: the last `n` characters (the whole string when it
is shorter than `n`). -/
def lastN (l : List Char) (n : Nat) : List Char :=
  l.drop (l.length - n)

/-- Python `str.split(sep)` for a one-character separator: splits at every
occurrence, keeping empty pieces. -/
def splitOnChar (sep : Char) : List Char → List (List Char)
  | [] => [[]]
  | c :: cs =>
    if c = sep then [] :: splitOnChar sep cs
    else
      match splitOnChar sep cs with
      | [] => [[c]]
      | w :: ws => (c :: w) :: ws

/-! ## `latin_word_syllabification.py` -/

/-- `_CONSONANT_GROUPS`. -/
def consonantGroups : List (List Char) :=
  ["ch", "ph", "th", "rh", "gn", "qu", "gu", "sc", "pl", "pr", "bl", "br",
   "tr", "dr", "cl", "cr", "fl", "fr", "gl", "gr", "st"].map String.toList

/-- `_PREFIX_GROUPS` (a Python `set`; iteration order is irrelevant because
no two of these prefixes can both satisfy `_get_prefixes`' conditions on the
same word). -/
def prefGroups : List (List Char) :=
  ["ab", "ob", "ad", "per", "sub", "in", "con", "co"].map String.toList

def isVowelChar (c : Char) : Bool := c ∈ ['a', 'e', 'i', 'o', 'u', 'y']
def isVowelAEOU (c : Char) : Bool := c ∈ ['a', 'e', 'o', 'u']
def isVowelAEIOU (c : Char) : Bool := c ∈ ['a', 'e', 'i', 'o', 'u']
def isVowelAEO (c : Char) : Bool := c ∈ ['a', 'e', 'o']
def isVowelEOU (c : Char) : Bool := c ∈ ['e', 'o', 'u']
def isVowelIY (c : Char) : Bool := c ∈ ['i', 'y']
def isVowelIUY (c : Char) : Bool := c ∈ ['i', 'u', 'y']
def isQG (c : Char) : Bool := c ∈ ['q', 'g']
def isNasalized (c : Char) : Bool := c ∈ ['m', 'n']

/-- The character class of `LATIN_ALPH_REGEX = [^a-zA-Z]`, complemented:
true exactly on ASCII letters. -/
def isLatinLetterChar (c : Char) : Bool :=
  ('a' ≤ c && c ≤ 'z') || ('A' ≤ c && c ≤ 'Z')

/-- `split_word_by_syl_bounds`: split `word` at the boundary indices,
appending a hyphen to every non-final syllable. -/
def splitWordBySylBounds (word : List Char) (bounds : List Nat) : List (List Char) :=
  match bounds with
  | [] => [word]
  | b0 :: rest =>
    (word.take b0 ++ ['-']) ::
      (((b0 :: rest).zip rest).map fun bb => pyExtract word bb.1 bb.2 ++ ['-']) ++
      [word.drop ((b0 :: rest).getLast (by simp))]

/-- `_get_prefixes`: the recognised prefix of a word, when the word is not
the prefix itself and the remainder starts with a vowel. -/
def getPref (word : List Char) : List Char :=
  (prefGroups.find? fun p =>
    p.isPrefixOf word && word ≠ p && isVowelChar (word.getD p.length ' ')).getD []

/-- The loop of `_replace_semivowels_and_v` over the characters after the
first one.  `acc` is `word_w_repl`, always nonempty. -/
def replLoop (acc : List Char) : List Char → List Char
  | [] => acc
  | c :: rest =>
    let pv := acc.getLastD ' '
    let nx := rest.headD ' '
    let keep : Char :=
      if !isVowelIUY c || rest = [] then c
      else if isVowelIY c then
        if (isVowelAEOU pv && isVowelAEOU nx) ||
            (lastN acc 2 ∉ consonantGroups && pv = 'h' && isVowelEOU nx) then 'j'
        else 'i'
      else -- c = 'u'
        if isQG pv && isVowelChar nx then 'w'
        else if isVowelChar pv && isVowelChar nx then 'v'
        else 'u'
    replLoop (acc ++ [keep]) rest

/-- `_replace_semivowels_and_v`.  The Python code looks ahead at `word[1]`
(and `word[2]` after an initial "ih"); an `IndexError` there is caught and
the word returned unchanged, which the `Option` models.  Python raises
`IndexError` on the empty string; callers never pass it. -/
def replaceSemivowelsAndV (word : List Char) : List Char :=
  match word with
  | [] => []
  | c :: rest =>
    let firstRes : Option Char :=
      if c = 'y' then
        match rest with
        | [] => none
        | d :: _ => some (if isVowelAEIOU d then 'j' else c)
      else if c = 'i' then
        match rest with
        | [] => none
        | d :: rest2 =>
          if isVowelAEOU d then some 'j'
          else if d = 'h' then
            match rest2 with
            | [] => none
            | e :: _ => some (if isVowelAEO e then 'j' else c)
          else some c
      else if c = 'u' then
        match rest with
        | [] => none
        | d :: _ => some (if isVowelChar d then 'v' else c)
      else some c
    match firstRes with
    | none => word
    | some c0 => replLoop [c0] rest

/-- Indices (counting from `i`) of the vowels of a character list. -/
def posFrom (i : Nat) : List Char → List Nat
  | [] => []
  | c :: cs => if isVowelChar c then i :: posFrom (i + 1) cs else posFrom (i + 1) cs

/-- `_get_vowel_positions`: replace long i (`j`), then semivowels, then list
the indices of the remaining vowels. -/
def getVowelPositions (word : List Char) : List Nat :=
  posFrom 0 (replaceSemivowelsAndV (word.map fun c => if c = 'j' then 'i' else c))

/-- The common tail of `_get_syl_bound_position` for two or more (possibly
nasal-peeled) letters between vowel groups: `base` is the boundary already
committed by peeling. -/
def gsbpCore (base : Nat) (l2 : List Char) : Nat :=
  if l2.length = 2 then
    if l2 ∈ consonantGroups then base else base + 1
  else if l2 = ['s', 't', 'r'] then base
  else if l2.tail ∈ consonantGroups then base + 1
  else if l2.take 2 ∈ consonantGroups then base
  else base + 1

/-- `_get_syl_bound_position` (the log-only `split_case` string of the
source is dropped): the boundary adjustment for the letters between two
vowel groups. -/
def getSylBoundPosition (l : List Char) : Nat :=
  if l.length = 0 then 0
  else if l.headD ' ' = 'x' then 1
  else if l.length = 1 then 0
  else if isNasalized (l.headD ' ') then
    if l.tail.length = 1 then 1
    else gsbpCore 1 l.tail
  else gsbpCore 0 l

def diphthongList : List (List Char) := [['a', 'e'], ['o', 'e'], ['a', 'u']]

/-- The boundary-adjusting loop of `_syllabify` over consecutive vowel
positions of the stem; a recognised diphthong contributes no boundary
(the Python `continue` skips the `append`).  `p` is the prefix length added
to every reported boundary. -/
def loopBounds (stem : List Char) (vp : List Nat) (p : Nat) : List Nat :=
  (vp.zip vp.tail).filterMap fun vv =>
    if vv.2 = vv.1 + 1 && pyExtract stem vv.1 (vv.2 + 1) ∈ diphthongList then none
    else some (vv.1 + 1 + getSylBoundPosition (pyExtract stem (vv.1 + 1) vv.2) + p)

/-- `_syllabify`: syllable-boundary indices of a (lowercase) word. -/
def syllabifyCore (word : List Char) : List Nat :=
  if word.length ≤ 1 then []
  else
    let pre := getPref word
    let p := pre.length
    let stem := word.drop p
    let base : List Nat := if p = 0 then [] else [p]
    let vp := getVowelPositions stem
    if vp.length = 1 then base
    else base ++ loopBounds stem vp p

/-- `syllabify_word` (with `return_string=False`): `LatinError` on any
non-ASCII-letter character, otherwise the boundary indices of the
lowercased word. -/
def syllabifyWord (word : List Char) : Except PyErr (List Nat) :=
  if word.all isLatinLetterChar then .ok (syllabifyCore (word.map Char.toLower))
  else .error .latinError

/-! ## The section data model (`syllabified_section.py`)

A `Syl` is a syllable string, a `Word` a list of syllables, and a section
(the `section` attribute of `SyllabifiedSection`) a list of words.  The
predicate methods index into the nested lists exactly as the Python
properties do, so they can raise `IndexError`. -/

abbrev Syl := List Char
abbrev Word := List Syl
abbrev TSec := List Word
abbrev VSec := List Word

/-- Python `self.section[word_num][syllable_num]` (`get_syllable`). -/
def getSyllable (s : List Word) (wordNum sylNum : Nat) : Except PyErr Syl :=
  match s.get? wordNum with
  | none => .error .indexError
  | some w =>
    match w.get? sylNum with
    | none => .error .indexError
    | some syl => .ok syl

/-- `SyllabifiedTextSection.is_syllabified`, with Python's left-to-right
short-circuit evaluation: the final conjunct `self.section[0][0][0] == "|"`
raises `IndexError` on an empty first syllable. -/
def textIsSyllabified (s : TSec) : Except PyErr Bool :=
  match s.head? with
  | none => .error .indexError
  | some w =>
    match w.head? with
    | none => .error .indexError
    | some syl =>
      if ['~'].isPrefixOf syl then .ok false
      else if ['['].isPrefixOf syl then .ok false
      else if ['{'].isPrefixOf syl then .ok false
      else
        match syl.head? with
        | none => .error .indexError
        | some c => .ok (c ≠ '|')

/-- `SyllabifiedTextSection.is_barline`: `self.section[0][0][0] == "|"`. -/
def textIsBarline (s : TSec) : Except PyErr Bool :=
  match s.head? with
  | none => .error .indexError
  | some w =>
    match w.head? with
    | none => .error .indexError
    | some syl =>
      match syl.head? with
      | none => .error .indexError
      | some c => .ok (c = '|')

/-- `SyllabifiedVolpianoSection.is_barline`:
`self.section[0][0][0] == "3" or self.section[0][0][0] == "4"`. -/
def volIsBarline (s : VSec) : Except PyErr Bool :=
  match s.head? with
  | none => .error .indexError
  | some w =>
    match w.head? with
    | none => .error .indexError
    | some syl =>
      match syl.head? with
      | none => .error .indexError
      | some c => .ok (c = '3' ∨ c = '4')

/-- `SyllabifiedVolpianoSection.is_missing_music`:
`self.section[0][0].startswith("6")` (`startswith` does not index, so an
empty first syllable is just `False`). -/
def volIsMissingMusic (s : VSec) : Except PyErr Bool :=
  match s.head? with
  | none => .error .indexError
  | some w =>
    match w.head? with
    | none => .error .indexError
    | some syl => .ok (['6'].isPrefixOf syl)

/-- `SyllabifiedVolpianoSection.flatten_to_str`: concatenate every syllable
of every word. -/
def flattenToStr (s : List Word) : List Char :=
  (s.map fun w => w.flatten).flatten

/-! ## `cantus_text_syllabification.py` -/

/-- `EXCEPTIONS_DICT`. -/
def exceptionsDict : List (List Char × List Nat) :=
  [("euouae".toList, [1, 2, 3, 4, 5]),
   ("israelitis".toList, [2, 4, 5, 7]),
   ("israel".toList, [2, 4]),
   ("michael".toList, [2, 5]),
   ("noe".toList, [2])]

/-- Python `\w` (ASCII fragment): letters, digits, underscore. -/
def isWordCharW (c : Char) : Bool := c.isAlphanum || c = '_'

/-- The complement of `INVALID_CHAR_REGEX = [^\w#~\{\}\[\]\|\- 8]`: true on
characters valid in Cantus DB text entries. -/
def isValidTextChar (c : Char) : Bool :=
  isWordCharW c || c ∈ ['#', '~', '{', '}', '[', ']', '|', '-', ' ', '8']

/-- `_clean_text`: remove invalid characters. -/
def cleanTextStr (text : List Char) : List Char := text.filter isValidTextChar

/-- `_detect_invalid_characters`. -/
def detectInvalidCharacters (text : List Char) : Bool :=
  text.any fun c => !isValidTextChar c

/-- Python `str.strip()` whitespace (ASCII fragment). -/
def isPyWhitespace (c : Char) : Bool :=
  c ∈ [' ', '\t', '\n', '\r', '\x0b', '\x0c']

def pyStrip (l : List Char) : List Char :=
  (((l.dropWhile isPyWhitespace).reverse).dropWhile isPyWhitespace).reverse

/-- The scanner for `SPACE_PRECEDING_HASH_REGEX = (?<=[^\{]) ?#` substituted
by `" #"`: Python `re.sub` scans the original string left to right; at each
position the greedy optional space is tried first, and the lookbehind
inspects the original character before the match. -/
def subSpacePrecedingHash (prev : Option Char) : List Char → List Char
  | [] => []
  | ' ' :: '#' :: rest =>
    match prev with
    | some p =>
      if p ≠ '{' then ' ' :: '#' :: subSpacePrecedingHash (some '#') rest
      else ' ' :: subSpacePrecedingHash (some ' ') ('#' :: rest)
    | none => ' ' :: subSpacePrecedingHash (some ' ') ('#' :: rest)
  | '#' :: rest =>
    match prev with
    | some p =>
      if p ≠ '{' then ' ' :: '#' :: subSpacePrecedingHash (some '#') rest
      else '#' :: subSpacePrecedingHash (some '#') rest
    | none => '#' :: subSpacePrecedingHash (some '#') rest
  | c :: rest => c :: subSpacePrecedingHash (some c) rest

/-- The scanner for `SPACE_FOLLOWING_HASH_REGEX = # ?(?=[^\}])` substituted
by `"# "`: at a `#`, the greedy optional space is consumed when the
lookahead (a following character other than `}`) holds after it; otherwise
the engine backtracks to `#` alone with the lookahead at the next
character. -/
def subSpaceFollowingHash : List Char → List Char
  | [] => []
  | '#' :: ' ' :: d :: rest =>
    if d ≠ '}' then '#' :: ' ' :: subSpaceFollowingHash (d :: rest)
    else '#' :: ' ' :: subSpaceFollowingHash (' ' :: d :: rest)
  | '#' :: ' ' :: [] => '#' :: ' ' :: subSpaceFollowingHash [' ']
  | '#' :: d :: rest =>
    if d ≠ '}' then '#' :: ' ' :: subSpaceFollowingHash (d :: rest)
    else '#' :: subSpaceFollowingHash (d :: rest)
  | c :: rest => c :: subSpaceFollowingHash rest

/-- `_space_hash_signs`: space out `#` so it tokenizes as its own word, and
report whether anything changed. -/
def spaceHashSigns (text : List Char) : List Char × Bool :=
  let spaced := subSpaceFollowingHash (subSpacePrecedingHash none text)
  (spaced, spaced ≠ text)

/-- Index of the first newline (or the length when there is none): the
frontier beyond which `.` of Python `re` cannot reach. -/
def firstNewlineIdx (l : List Char) : Nat :=
  match l.findIdx? (· = '\n') with
  | some i => i
  | none => l.length

/-- A match of `TEXT_SECTIONER_REGEX = (\||\{.*?\}|~.*?(?=\||$)|\[.*\])`
starting at the head of the input, as `(match, rest)`; alternatives are
tried in the regex's order. -/
def textSectionMatchAt (s : List Char) : Option (List Char × List Char) :=
  match s with
  | '|' :: rest => some (['|'], rest)
  | '{' :: rest =>
    -- `\{.*?\}`: lazy up to the first `}`, which `.` must reach without
    -- crossing a newline.
    match rest.findIdx? (· = '}') with
    | some k =>
      if k < firstNewlineIdx rest then some ('{' :: rest.take k ++ ['}'], rest.drop (k + 1))
      else none
    | none => none
  | '~' :: rest =>
    -- `~.*?(?=\||$)`: lazy until the next `|`, the end of the string, or the
    -- position before a final newline; `.` cannot cross a newline.
    let stop := match rest.findIdx? (· = '|') with
      | some k => k
      | none =>
        if rest.getLast? = some '\n' then rest.length - 1 else rest.length
    if stop ≤ firstNewlineIdx rest then some ('~' :: rest.take stop, rest.drop stop)
    else none
  | '[' :: rest =>
    -- `\[.*\]`: greedy to the last `]` reachable without crossing a newline.
    match ((rest.take (firstNewlineIdx rest)).reverse.findIdx? (· = ']')) with
    | some krev =>
      let k := firstNewlineIdx rest - 1 - krev
      some ('[' :: rest.take k ++ [']'], rest.drop (k + 1))
    | none => none
  | _ => none

theorem textSectionMatchAt_rest_length {s m rest : List Char}
    (h : textSectionMatchAt s = some (m, rest)) : rest.length < s.length := by
  simp only [textSectionMatchAt] at h
  split at h <;> (try split at h) <;> (try split at h) <;>
    first
      | (simp only [Option.some.injEq, Prod.mk.injEq] at h
         obtain ⟨h1, h2⟩ := h
         subst h2
         simp_all [List.length_drop]
         try omega)
      | simp at h

/-- `re.split` on `TEXT_SECTIONER_REGEX` with its capturing group: the
interleaved list of non-matching chunks and matches (the accumulator holds
the chunk under construction; the fuel is a modelling device, spent once per
character or match, and `textSplitAux_unfold` shows the supplied fuel is
never exhausted). -/
def textSplitGoF : Nat → List Char → List Char → List (List Char)
  | 0, acc, s => [acc ++ s]
  | _ + 1, acc, [] => [acc]
  | fuel + 1, acc, c :: cs =>
    match textSectionMatchAt (c :: cs) with
    | some (m, rest) => acc :: m :: textSplitGoF fuel [] rest
    | none => textSplitGoF fuel (acc ++ [c]) cs

theorem textSplitGoF_fuel_irrelevant :
    ∀ (n f1 f2 : Nat) (acc s : List Char), s.length ≤ n → s.length ≤ f1 →
      s.length ≤ f2 → textSplitGoF f1 acc s = textSplitGoF f2 acc s := by
  intro n
  induction n with
  | zero =>
    intro f1 f2 acc s hn _ _
    have : s = [] := List.length_eq_zero.mp (Nat.le_zero.mp hn)
    subst this
    cases f1 <;> cases f2 <;> simp [textSplitGoF]
  | succ n ih =>
    intro f1 f2 acc s hn h1 h2
    match s with
    | [] => cases f1 <;> cases f2 <;> simp [textSplitGoF]
    | c :: cs =>
      simp only [List.length_cons] at hn h1 h2
      match f1, f2 with
      | a + 1, b + 1 =>
        simp only [textSplitGoF]
        cases hm : textSectionMatchAt (c :: cs) with
        | some p =>
          have hl := textSectionMatchAt_rest_length hm
          simp only [List.length_cons] at hl
          exact congrArg _ (congrArg _ (ih a b [] p.2 (by omega) (by omega) (by omega)))
        | none =>
          exact ih a b (acc ++ [c]) cs (by omega) (by omega) (by omega)

def textSplitAux (acc s : List Char) : List (List Char) :=
  textSplitGoF s.length acc s

theorem textSplitAux_unfold (acc s : List Char) :
    textSplitAux acc s =
      match s with
      | [] => [acc]
      | c :: cs =>
        match textSectionMatchAt (c :: cs) with
        | some (m, rest) => acc :: m :: textSplitAux [] rest
        | none => textSplitAux (acc ++ [c]) cs := by
  match s with
  | [] => simp [textSplitAux, textSplitGoF]
  | c :: cs =>
    simp only [textSplitAux, List.length_cons, textSplitGoF]
    cases hm : textSectionMatchAt (c :: cs) with
    | some p =>
      have hl := textSectionMatchAt_rest_length hm
      simp only [List.length_cons] at hl
      exact congrArg _ (congrArg _
        (textSplitGoF_fuel_irrelevant cs.length _ _ [] p.2 (by omega) (by omega) (by omega)))
    | none =>
      exact textSplitGoF_fuel_irrelevant cs.length _ _ (acc ++ [c]) cs
        (by omega) (by omega) (by omega)

/-- `_split_text_sections`: split on the sectioner regex, strip each piece
and drop the empty ones. -/
def splitTextSections (text : List Char) : List (List Char) :=
  ((textSplitAux [] text).map pyStrip).filter (· ≠ [])

/-- `STR_BEGINS_W_HYPHEN_REGEX` / `STR_ENDS_W_HYPHEN_REGEX` in
`_prepare_string_for_syllabification`: remove one leading and one trailing
hyphen, reporting which were present. -/
def prepareStringForSyllabification (w : List Char) :
    List Char × Bool × Bool :=
  let (w1, startHy) :=
    match w with
    | '-' :: rest => (rest, true)
    | _ => (w, false)
  let (w2, endHy) :=
    if w1.getLast? = some '-' then (w1.dropLast, true) else (w1, false)
  (w2, startHy, endHy)

/-- The `text_presyllabified` split of a prepared word: split on embedded
hyphens and re-attach a trailing boundary hyphen to each non-final
syllable. -/
def presylSplit (prepared : List Char) : Word :=
  (splitOnChar '-' prepared).dropLast.map (· ++ ['-']) ++
    [(splitOnChar '-' prepared).getLastD []]

/-- Re-attach the recorded edge hyphens of a word to its first/last
syllable. -/
def reattachHyphens (syllabified : Word) (startHy endHy : Bool) : Word :=
  let withStart :=
    if startHy then
      match syllabified with
      | [] => []
      | s :: rest => ('-' :: s) :: rest
    else syllabified
  if endHy then withStart.dropLast ++ [withStart.getLastD [] ++ ['-']]
  else withStart

/-- The per-word body of `syllabify_text`'s inner loop (for the default
`language=None`): `#` is kept opaque; an exception-table word gets its fixed
boundaries; otherwise edge hyphens are stripped, the word is split on
embedded hyphens (`text_presyllabified`) or syllabified by `syllabify_word`
(whose `LatinError` propagates), and edge hyphens are re-attached. -/
def syllabifyTextWord (word : List Char) (presyllabified : Bool) :
    Except PyErr Word :=
  if word = ['#'] then .ok [word]
  else
    match (exceptionsDict.find? fun e => e.1 = word.map Char.toLower) with
    | some e => .ok (splitWordBySylBounds word e.2)
    | none =>
      match prepareStringForSyllabification word with
      | (prepared, startHy, endHy) =>
        match (if presyllabified then Except.ok (presylSplit prepared)
          else (syllabifyWord prepared).map (splitWordBySylBounds prepared)) with
        | .error e => .error e
        | .ok syllabified => .ok (reattachHyphens syllabified startHy endHy)

/-- The per-section body of `syllabify_text`'s outer loop. -/
def syllabifyTextSection (sec : List Char) (presyllabified : Bool) :
    Except PyErr TSec :=
  if sec = ['|'] || (sec.headD ' ') ∈ ['{', '~', '['] then .ok [[sec]]
  else
    ((splitOnChar ' ' sec).filter (· ≠ [])).mapM
      fun w => syllabifyTextWord w presyllabified

/-- `syllabify_text`: returns the syllabified sections and the
spacing-adjusted flag; raises `ValueError` on invalid characters when
`clean_text` is false, and propagates `LatinError` from `syllabify_word`.
(`language` is its default `None` throughout this development.) -/
def syllabifyText (text : List Char) (cleanText presyllabified : Bool) :
    Except PyErr (List TSec × Bool) :=
  if !cleanText && detectInvalidCharacters text then .error .valueError
  else
    match (splitTextSections
        (spaceHashSigns (if cleanText then cleanTextStr text else text)).1).mapM
        (fun sec => syllabifyTextSection sec presyllabified) with
    | .error e => .error e
    | .ok out =>
      .ok (out, (spaceHashSigns (if cleanText then cleanTextStr text else text)).2)

/-! ## `volpiano_syllabification.py` -/

/-- The complement of `INVALID_VOLPIANO_CHARS_REGEX
= [^\-9abcdefghijklmnopqrsyz)ABCDEFGHIJKLMNOPQRSYZ3467]`. -/
def isValidVolpianoChar (c : Char) : Bool :=
  c ∈ "-9abcdefghijklmnopqrsyz)ABCDEFGHIJKLMNOPQRSYZ3467".toList

/-- Greedy run of `[\-7]*`: the leading spacer/break characters and the
rest. -/
def hy7run : List Char → List Char × List Char
  | [] => ([], [])
  | c :: cs =>
    if c = '-' ∨ c = '7' then ((c :: (hy7run cs).1), (hy7run cs).2)
    else ([], c :: cs)

theorem hy7run_rest_length_le (l : List Char) : (hy7run l).2.length ≤ l.length := by
  induction l with
  | nil => simp [hy7run]
  | cons c cs ih =>
    simp only [hy7run]
    split
    · exact Nat.le_succ_of_le ih
    · simp

theorem hy7run_append (l : List Char) : (hy7run l).1 ++ (hy7run l).2 = l := by
  induction l with
  | nil => simp [hy7run]
  | cons c cs ih =>
    simp only [hy7run]
    split
    · simpa using ih
    · simp

/-- A match of `VOLPIANO_SECTIONING_REGEX = ([34][\-7]*|6[\-7]*6[\-7]*)`
starting at the head of the input, as `(match, rest)`.  The `6…6`
alternative needs a second `6` right after the first spacer/break run
(backtracking cannot help, since `[\-7]` excludes `6`). -/
def volSectionMatchAt (s : List Char) : Option (List Char × List Char) :=
  match s with
  | c :: cs =>
    if c = '3' ∨ c = '4' then some (c :: (hy7run cs).1, (hy7run cs).2)
    else if c = '6' then
      match (hy7run cs).2 with
      | '6' :: cs2 =>
        some (c :: (hy7run cs).1 ++ '6' :: (hy7run cs2).1, (hy7run cs2).2)
      | _ => none
    else none
  | [] => none

theorem volSectionMatchAt_rest {s m rest : List Char}
    (h : volSectionMatchAt s = some (m, rest)) :
    m ≠ [] ∧ m ++ rest = s := by
  match s with
  | [] => simp [volSectionMatchAt] at h
  | c :: cs =>
    simp only [volSectionMatchAt] at h
    split at h
    · simp only [Option.some.injEq, Prod.mk.injEq] at h
      obtain ⟨h1, h2⟩ := h
      subst h1 h2
      simp [hy7run_append]
    · split at h
      · split at h
        · rename_i cs2 heq
          simp only [Option.some.injEq, Prod.mk.injEq] at h
          obtain ⟨h1, h2⟩ := h
          subst h1 h2
          refine ⟨by simp, ?_⟩
          have h2 := hy7run_append cs
          have h3 := hy7run_append cs2
          simp only [List.cons_append, List.cons.injEq, true_and]
          rw [List.append_assoc, List.cons_append, h3, ← heq, h2]
        · exact absurd h (by simp)
      · exact absurd h (by simp)

theorem volSectionMatchAt_rest_length {s m rest : List Char}
    (h : volSectionMatchAt s = some (m, rest)) : rest.length < s.length := by
  obtain ⟨hm, hs⟩ := volSectionMatchAt_rest h
  have : m.length + rest.length = s.length := by
    rw [← hs]; simp
  have : 0 < m.length := List.length_pos.mpr hm
  omega

/-- `re.split` on `VOLPIANO_SECTIONING_REGEX` with its capturing group:
interleaved non-matching chunks and matches (fuelled like
`textSplitGoF`). -/
def volSplitGoF : Nat → List Char → List Char → List (List Char)
  | 0, acc, s => [acc ++ s]
  | _ + 1, acc, [] => [acc]
  | fuel + 1, acc, c :: cs =>
    match volSectionMatchAt (c :: cs) with
    | some (m, rest) => acc :: m :: volSplitGoF fuel [] rest
    | none => volSplitGoF fuel (acc ++ [c]) cs

theorem volSplitGoF_fuel_irrelevant :
    ∀ (n f1 f2 : Nat) (acc s : List Char), s.length ≤ n → s.length ≤ f1 →
      s.length ≤ f2 → volSplitGoF f1 acc s = volSplitGoF f2 acc s := by
  intro n
  induction n with
  | zero =>
    intro f1 f2 acc s hn _ _
    have : s = [] := List.length_eq_zero.mp (Nat.le_zero.mp hn)
    subst this
    cases f1 <;> cases f2 <;> simp [volSplitGoF]
  | succ n ih =>
    intro f1 f2 acc s hn h1 h2
    match s with
    | [] => cases f1 <;> cases f2 <;> simp [volSplitGoF]
    | c :: cs =>
      simp only [List.length_cons] at hn h1 h2
      match f1, f2 with
      | a + 1, b + 1 =>
        simp only [volSplitGoF]
        cases hm : volSectionMatchAt (c :: cs) with
        | some p =>
          have hl := volSectionMatchAt_rest_length hm
          simp only [List.length_cons] at hl
          exact congrArg _ (congrArg _ (ih a b [] p.2 (by omega) (by omega) (by omega)))
        | none =>
          exact ih a b (acc ++ [c]) cs (by omega) (by omega) (by omega)

def volSplitAux (acc s : List Char) : List (List Char) :=
  volSplitGoF s.length acc s

theorem volSplitAux_unfold (acc s : List Char) :
    volSplitAux acc s =
      match s with
      | [] => [acc]
      | c :: cs =>
        match volSectionMatchAt (c :: cs) with
        | some (m, rest) => acc :: m :: volSplitAux [] rest
        | none => volSplitAux (acc ++ [c]) cs := by
  match s with
  | [] => simp [volSplitAux, volSplitGoF]
  | c :: cs =>
    simp only [volSplitAux, List.length_cons, volSplitGoF]
    cases hm : volSectionMatchAt (c :: cs) with
    | some p =>
      have hl := volSectionMatchAt_rest_length hm
      simp only [List.length_cons] at hl
      exact congrArg _ (congrArg _
        (volSplitGoF_fuel_irrelevant cs.length _ _ [] p.2 (by omega) (by omega) (by omega)))
    | none =>
      exact volSplitGoF_fuel_irrelevant cs.length _ _ (acc ++ [c]) cs
        (by omega) (by omega) (by omega)

/-- The section split of `syllabify_volpiano`, with the empty chunks
dropped. -/
def volpianoSections (volpiano : List Char) : List (List Char) :=
  (volSplitAux [] volpiano).filter (· ≠ [])

/-- Earliest start of a `-{3,}` run reachable by `.*?` (so before any
newline). -/
def findTripleHyphen : List Char → Option Nat
  | [] => none
  | c :: cs =>
    if c = '\n' then none
    else if ['-', '-', '-'].isPrefixOf (c :: cs) then some 0
    else (findTripleHyphen cs).map (· + 1)

/-- Earliest start of a `-{2,}` run reachable by `.*?`. -/
def findDoubleHyphen : List Char → Option Nat
  | [] => none
  | c :: cs =>
    if c = '\n' then none
    else if ['-', '-'].isPrefixOf (c :: cs) then some 0
    else (findDoubleHyphen cs).map (· + 1)

theorem findTripleHyphen_hyphen {s : List Char} {m : Nat}
    (h : findTripleHyphen s = some m) : ∃ t, s.drop m = '-' :: t := by
  induction s generalizing m with
  | nil => simp [findTripleHyphen] at h
  | cons c cs ih =>
    simp only [findTripleHyphen] at h
    split at h
    · simp at h
    · split at h
      · rename_i hpre
        simp only [Option.some.injEq] at h
        subst h
        rw [List.isPrefixOf_iff_prefix] at hpre
        obtain ⟨t, ht⟩ := hpre
        exact ⟨'-' :: '-' :: t, by simp [← ht]⟩
      · simp only [Option.map_eq_some'] at h
        obtain ⟨m', hm', rfl⟩ := h
        simpa using ih hm'

theorem findDoubleHyphen_hyphen {s : List Char} {m : Nat}
    (h : findDoubleHyphen s = some m) : ∃ t, s.drop m = '-' :: t := by
  induction s generalizing m with
  | nil => simp [findDoubleHyphen] at h
  | cons c cs ih =>
    simp only [findDoubleHyphen] at h
    split at h
    · simp at h
    · split at h
      · rename_i hpre
        simp only [Option.some.injEq] at h
        subst h
        rw [List.isPrefixOf_iff_prefix] at hpre
        obtain ⟨t, ht⟩ := hpre
        exact ⟨'-' :: t, by simp [← ht]⟩
      · simp only [Option.map_eq_some'] at h
        obtain ⟨m', hm', rfl⟩ := h
        simpa using ih hm'

/-- Length of the greedy hyphen run at the head. -/
def hyRunLen (l : List Char) : Nat := (l.takeWhile (· = '-')).length

/-- A match of `VOLPIANO_WORD_REGEX = .*?-{3,}|.+$` at the head of the
input: either the shortest prefix ending in a (greedily extended) run of at
least three hyphens, or — `$` matching at the end of the string or before a
final newline — the whole newline-free remainder. -/
def tryWordMatch (s : List Char) : Option (List Char × List Char) :=
  match findTripleHyphen s with
  | some m =>
    let j := m + hyRunLen (s.drop m)
    some (s.take j, s.drop j)
  | none =>
    let k := firstNewlineIdx s
    if k = s.length ∧ 0 < s.length then some (s, [])
    else if k + 1 = s.length ∧ 0 < k then some (s.take k, s.drop k)
    else none

/-- A match of `VOLPIANO_SYLLABLE_REGEX = .*?-{2,}|.+$` at the head of the
input. -/
def trySylMatch (s : List Char) : Option (List Char × List Char) :=
  match findDoubleHyphen s with
  | some m =>
    let j := m + hyRunLen (s.drop m)
    some (s.take j, s.drop j)
  | none =>
    let k := firstNewlineIdx s
    if k = s.length ∧ 0 < s.length then some (s, [])
    else if k + 1 = s.length ∧ 0 < k then some (s.take k, s.drop k)
    else none

theorem tryWordMatch_parts {s w rest : List Char}
    (h : tryWordMatch s = some (w, rest)) : w ++ rest = s ∧ w ≠ [] := by
  simp only [tryWordMatch] at h
  split at h
  · rename_i m hm
    simp only [Option.some.injEq, Prod.mk.injEq] at h
    obtain ⟨h1, h2⟩ := h
    subst h1 h2
    obtain ⟨t, ht⟩ := findTripleHyphen_hyphen hm
    refine ⟨List.take_append_drop _ _, ?_⟩
    have hs : s ≠ [] := by
      intro hnil
      rw [hnil] at ht
      simp at ht
    have hj : 0 < m + hyRunLen (s.drop m) := by
      have : 0 < hyRunLen (s.drop m) := by
        rw [ht]
        simp [hyRunLen, List.takeWhile]
      omega
    simp only [ne_eq, List.take_eq_nil_iff]
    rintro (h | h)
    · omega
    · exact hs h
  · split at h
    · rename_i hcond
      simp only [Option.some.injEq, Prod.mk.injEq] at h
      obtain ⟨h1, h2⟩ := h
      subst h1 h2
      exact ⟨by simp, List.length_pos.mp hcond.2⟩
    · split at h
      · rename_i hcond
        simp only [Option.some.injEq, Prod.mk.injEq] at h
        obtain ⟨h1, h2⟩ := h
        subst h1 h2
        refine ⟨List.take_append_drop _ _, ?_⟩
        simp only [ne_eq, List.take_eq_nil_iff]
        rintro (h | h)
        · omega
        · rw [h] at hcond
          simp at hcond
      · exact absurd h (by simp)

theorem trySylMatch_parts {s w rest : List Char}
    (h : trySylMatch s = some (w, rest)) : w ++ rest = s ∧ w ≠ [] := by
  simp only [trySylMatch] at h
  split at h
  · rename_i m hm
    simp only [Option.some.injEq, Prod.mk.injEq] at h
    obtain ⟨h1, h2⟩ := h
    subst h1 h2
    obtain ⟨t, ht⟩ := findDoubleHyphen_hyphen hm
    refine ⟨List.take_append_drop _ _, ?_⟩
    have hs : s ≠ [] := by
      intro hnil
      rw [hnil] at ht
      simp at ht
    have hj : 0 < m + hyRunLen (s.drop m) := by
      have : 0 < hyRunLen (s.drop m) := by
        rw [ht]
        simp [hyRunLen, List.takeWhile]
      omega
    simp only [ne_eq, List.take_eq_nil_iff]
    rintro (h | h)
    · omega
    · exact hs h
  · split at h
    · rename_i hcond
      simp only [Option.some.injEq, Prod.mk.injEq] at h
      obtain ⟨h1, h2⟩ := h
      subst h1 h2
      exact ⟨by simp, List.length_pos.mp hcond.2⟩
    · split at h
      · rename_i hcond
        simp only [Option.some.injEq, Prod.mk.injEq] at h
        obtain ⟨h1, h2⟩ := h
        subst h1 h2
        refine ⟨List.take_append_drop _ _, ?_⟩
        simp only [ne_eq, List.take_eq_nil_iff]
        rintro (h | h)
        · omega
        · rw [h] at hcond
          simp at hcond
      · exact absurd h (by simp)

theorem tryWordMatch_rest_length {s w rest : List Char}
    (h : tryWordMatch s = some (w, rest)) : rest.length < s.length := by
  obtain ⟨hs, hw⟩ := tryWordMatch_parts h
  have : w.length + rest.length = s.length := by rw [← hs]; simp
  have : 0 < w.length := List.length_pos.mpr hw
  omega

theorem trySylMatch_rest_length {s w rest : List Char}
    (h : trySylMatch s = some (w, rest)) : rest.length < s.length := by
  obtain ⟨hs, hw⟩ := trySylMatch_parts h
  have : w.length + rest.length = s.length := by rw [← hs]; simp
  have : 0 < w.length := List.length_pos.mpr hw
  omega

/-- `re.findall` with `VOLPIANO_WORD_REGEX` (fuelled): positions without a
match are skipped. -/
def findWordsGo : Nat → List Char → List (List Char)
  | 0, _ => []
  | _ + 1, [] => []
  | fuel + 1, c :: cs =>
    match tryWordMatch (c :: cs) with
    | some (w, rest) => w :: findWordsGo fuel rest
    | none => findWordsGo fuel cs

theorem findWordsGo_fuel_irrelevant :
    ∀ (n f1 f2 : Nat) (s : List Char), s.length ≤ n → s.length ≤ f1 →
      s.length ≤ f2 → findWordsGo f1 s = findWordsGo f2 s := by
  intro n
  induction n with
  | zero =>
    intro f1 f2 s hn _ _
    have : s = [] := List.length_eq_zero.mp (Nat.le_zero.mp hn)
    subst this
    cases f1 <;> cases f2 <;> simp [findWordsGo]
  | succ n ih =>
    intro f1 f2 s hn h1 h2
    match s with
    | [] => cases f1 <;> cases f2 <;> simp [findWordsGo]
    | c :: cs =>
      simp only [List.length_cons] at hn h1 h2
      match f1, f2 with
      | a + 1, b + 1 =>
        simp only [findWordsGo]
        cases hm : tryWordMatch (c :: cs) with
        | some p =>
          have hl := tryWordMatch_rest_length hm
          simp only [List.length_cons] at hl
          exact congrArg _ (ih a b p.2 (by omega) (by omega) (by omega))
        | none => exact ih a b cs (by omega) (by omega) (by omega)

def findWords (s : List Char) : List (List Char) := findWordsGo s.length s

theorem findWords_unfold (s : List Char) :
    findWords s =
      match s with
      | [] => []
      | c :: cs =>
        match tryWordMatch (c :: cs) with
        | some (w, rest) => w :: findWords rest
        | none => findWords cs := by
  match s with
  | [] => rfl
  | c :: cs =>
    simp only [findWords, List.length_cons, findWordsGo]
    cases hm : tryWordMatch (c :: cs) with
    | some p =>
      have hl := tryWordMatch_rest_length hm
      simp only [List.length_cons] at hl
      exact congrArg _
        (findWordsGo_fuel_irrelevant cs.length _ _ p.2 (by omega) (by omega) (by omega))
    | none =>
      exact findWordsGo_fuel_irrelevant cs.length _ _ cs (by omega) (by omega) (by omega)

/-- `re.findall` with `VOLPIANO_SYLLABLE_REGEX` (fuelled). -/
def findSylsGo : Nat → List Char → List (List Char)
  | 0, _ => []
  | _ + 1, [] => []
  | fuel + 1, c :: cs =>
    match trySylMatch (c :: cs) with
    | some (w, rest) => w :: findSylsGo fuel rest
    | none => findSylsGo fuel cs

theorem findSylsGo_fuel_irrelevant :
    ∀ (n f1 f2 : Nat) (s : List Char), s.length ≤ n → s.length ≤ f1 →
      s.length ≤ f2 → findSylsGo f1 s = findSylsGo f2 s := by
  intro n
  induction n with
  | zero =>
    intro f1 f2 s hn _ _
    have : s = [] := List.length_eq_zero.mp (Nat.le_zero.mp hn)
    subst this
    cases f1 <;> cases f2 <;> simp [findSylsGo]
  | succ n ih =>
    intro f1 f2 s hn h1 h2
    match s with
    | [] => cases f1 <;> cases f2 <;> simp [findSylsGo]
    | c :: cs =>
      simp only [List.length_cons] at hn h1 h2
      match f1, f2 with
      | a + 1, b + 1 =>
        simp only [findSylsGo]
        cases hm : trySylMatch (c :: cs) with
        | some p =>
          have hl := trySylMatch_rest_length hm
          simp only [List.length_cons] at hl
          exact congrArg _ (ih a b p.2 (by omega) (by omega) (by omega))
        | none => exact ih a b cs (by omega) (by omega) (by omega)

def findSyls (s : List Char) : List (List Char) := findSylsGo s.length s

theorem findSyls_unfold (s : List Char) :
    findSyls s =
      match s with
      | [] => []
      | c :: cs =>
        match trySylMatch (c :: cs) with
        | some (w, rest) => w :: findSyls rest
        | none => findSyls cs := by
  match s with
  | [] => rfl
  | c :: cs =>
    simp only [findSyls, List.length_cons, findSylsGo]
    cases hm : trySylMatch (c :: cs) with
    | some p =>
      have hl := trySylMatch_rest_length hm
      simp only [List.length_cons] at hl
      exact congrArg _
        (findSylsGo_fuel_irrelevant cs.length _ _ p.2 (by omega) (by omega) (by omega))
    | none =>
      exact findSylsGo_fuel_irrelevant cs.length _ _ cs (by omega) (by omega) (by omega)

/-- The improper-spacing check on a missing-music section
(`vol_sec[-3:] != "---" or vol_sec[1:8] != "------6" or
len(vol_sec.replace("7", "")) != 11`). -/
def missingMusicBadlySpaced (sec : List Char) : Bool :=
  lastN sec 3 ≠ ['-', '-', '-'] ||
    pyExtract sec 1 8 ≠ "------6".toList ||
    (sec.filter (· ≠ '7')).length ≠ 11

/-- The improper-spacing check on a barline section (including the source's
comparison of the section index with `len(vol_sec) - 1`). -/
def barlineBadlySpaced (secIdx : Nat) (sec : List Char) : Bool :=
  (sec.headD ' ' = '3' ∨ sec.headD ' ' = '4') &&
    secIdx ≠ sec.length - 1 &&
    (lastN sec 3 ≠ ['-', '-', '-'] || (sec.filter (· ≠ '7')).length ≠ 4)

/-- The check on a word's final syllable: flagged unless it has at least
four characters, ends with exactly three hyphens, and its fourth-from-last
character is not a hyphen (`IndexError` on shorter syllables is caught and
also flags). -/
def finalSylBadlySpaced (syls : List (List Char)) : Bool :=
  match syls.getLast? with
  | none => true
  | some syl =>
    if lastN syl 3 ≠ ['-', '-', '-'] then true
    else if syl.length < 4 then true -- `final_syl_of_word[-4]` raises
    else syl.getD (syl.length - 4) ' ' = '-'

/-- The body of `syllabify_volpiano`'s loop for one section, returning the
section's words and whether it flags improper spacing. -/
def syllabifyVolpianoSection (secIdx : Nat) (sec : List Char) :
    VSec × Bool :=
  if sec.headD ' ' ∈ ['3', '4', '6'] then
    let flag :=
      if sec.headD ' ' = '6' then missingMusicBadlySpaced sec
      else barlineBadlySpaced secIdx sec
    ([[sec]], flag)
  else
    let wordStrs := findWords sec
    let words := wordStrs.map findSyls
    (words, words.any finalSylBadlySpaced)

/-- `syllabify_volpiano`: the sections of a volpiano string together with
the improperly-spaced review flag. -/
def syllabifyVolpiano (volpiano : List Char) : List VSec × Bool :=
  let secs := volpianoSections volpiano
  let out := secs.mapIdx fun i sec => syllabifyVolpianoSection i sec
  (out.map Prod.fst, out.any Prod.snd)

/-- `^.*?1-*` of `STARTING_MATERIAL_REGEX`: everything before the first
clef (reachable without a newline), the clef, and its trailing spacing, is
removed; with no match the string is unchanged. -/
def stripStartingMaterial (raw : List Char) : List Char :=
  match raw.findIdx? (· = '1') with
  | some k =>
    if k ≤ firstNewlineIdx raw then
      let afterClef := raw.drop (k + 1)
      afterClef.dropWhile (· = '-')
    else raw
  | none => raw

/-- `prepare_volpiano_for_syllabification`: flag a malformed opening clef,
remove everything up to and including the clef, and drop invalid
characters. -/
def prepareVolpianoForSyllabification (raw : List Char) :
    List Char × Bool :=
  let flag0 := raw.take 4 ≠ "1---".toList ∨ raw.take 5 = "1----".toList
  let clefRemoved := stripStartingMaterial raw
  let processed := clefRemoved.filter isValidVolpianoChar
  (processed, flag0 ∨ processed ≠ clefRemoved)

/-- `ensure_end_of_word_spacing`: make the string end with exactly three
hyphens (stripping any existing trailing run first) unless it already ends
with `---`. -/
def ensureEndOfWordSpacing (volpiano : List Char) : List Char :=
  if lastN volpiano 3 ≠ ['-', '-', '-'] then
    (volpiano.reverse.dropWhile (· = '-')).reverse ++ ['-', '-', '-']
  else volpiano

/-- `adjust_volpiano_spacing_for_rendering`: pad the volpiano syllable to
the paired text length and, at a word end, ensure the canonical trailing
run. -/
def adjustVolpianoSpacingForRendering (volpianoSyl : List Char)
    (textLength : Nat) (endOfWord : Bool) : List Char :=
  let padded :=
    if textLength > volpianoSyl.length then
      volpianoSyl ++ List.replicate (textLength - volpianoSyl.length) '-'
    else volpianoSyl
  if endOfWord then ensureEndOfWordSpacing padded else padded

/-- Python `volpiano.split("6")[-1]`: the characters after the last `6`
(the whole string when there is none). -/
def afterLastSix (volpiano : List Char) : List Char :=
  (volpiano.reverse.takeWhile (· ≠ '6')).reverse

/-- `adjust_missing_music_spacing_for_rendering`: `ValueError` unless the
section starts with `6` (`IndexError` on an empty string); the interior is
replaced by the fixed `6------6` for text of length at most 10, else by
`6`, `text_length` hyphens and `6`; whatever followed the last `6` is kept
and end-of-word spacing ensured. -/
def adjustMissingMusicSpacingForRendering (volpiano : List Char)
    (textLength : Nat) : Except PyErr (List Char) :=
  match volpiano.head? with
  | none => .error .indexError
  | some c =>
    if c ≠ '6' then .error .valueError
    else
      let sectionTerm := afterLastSix volpiano
      let spacedVol :=
        if textLength ≤ 10 then "6------6".toList
        else '6' :: List.replicate textLength '-' ++ ['6']
      .ok (ensureEndOfWordSpacing (spacedVol ++ sectionTerm))

/-! ## `text_volpiano_alignment.py` -/

/-- `itertools.zip_longest` with one `fillvalue` (each call site of the
source pads only its shorter argument). -/
def zipLongest {α : Type} : List α → List α → α → List (α × α)
  | [], [], _ => []
  | a :: as, [], f => (a, f) :: zipLongest as [] f
  | [], b :: bs, f => (f, b) :: zipLongest [] bs f
  | a :: as, b :: bs, f => (a, b) :: zipLongest as bs f

/-- `_zip_and_align`: zip, padding the shorter side, and report whether
padding was needed. -/
def zipAndAlign {α : Type} (text volp : List α) (padText padVolp : α) :
    List (α × α) × Bool :=
  if text.length = volp.length then (text.zip volp, false)
  else if text.length > volp.length then (zipLongest text volp padVolp, true)
  else (zipLongest text volp padText, true)

/-- `_align_word`: align two words syllable by syllable (`zipped_word[-1]`
raises `IndexError` when both words are empty). -/
def alignWord (text volp : Word) : Except PyErr (List (Syl × Syl) × Bool) :=
  let (zipped, padded) := zipAndAlign text volp [] ['-', '-', '-']
  match zipped.getLast? with
  | none => .error .indexError
  | some lastPair =>
    let initPairs := zipped.dropLast.map fun tv =>
      (tv.1, adjustVolpianoSpacingForRendering tv.2 tv.1.length false)
    .ok (initPairs ++
      [(lastPair.1,
        adjustVolpianoSpacingForRendering lastPair.2 lastPair.1.length true)],
      padded)

/-- `_align_section`. -/
def alignSection (textSec : TSec) (volpSec : VSec) :
    Except PyErr (List (Syl × Syl) × Bool) := do
  let isSyl ← textIsSyllabified textSec
  if !isSyl then do
    let unsyl ← getSyllable textSec 0 0
    let flattened := flattenToStr volpSec
    let mm ← volIsMissingMusic volpSec
    if mm then do
      let processed ← adjustMissingMusicSpacingForRendering flattened unsyl.length
      pure ([(unsyl, processed)], false)
    else
      pure ([(unsyl, adjustVolpianoSpacingForRendering flattened unsyl.length true)],
        false)
  else do
    let (alignedWords, sectionPadded) :=
      zipAndAlign textSec volpSec [[]] [['-', '-', '-']]
    let aligned ← alignedWords.mapM fun tv =>
      (alignWord tv.1 tv.2).map fun r => (r.1, r.2 && tv.1 ≠ [['#']])
    pure ((aligned.map Prod.fst).flatten,
      sectionPadded || aligned.any Prod.snd)

/-- Python `list.insert(i, x)`. -/
def pyInsert {α : Type} (l : List α) (i : Nat) (x : α) : List α :=
  l.take i ++ x :: l.drop i

/-- `_insert_text_barline`: replace section `secIdx` by its first
`splitWordIdx` words, a `|` barline section, and its remaining words. -/
def insertTextBarline (secs : List TSec) (secIdx splitWordIdx : Nat) :
    List TSec :=
  let toSplit := secs.getD secIdx []
  pyInsert
    (pyInsert (secs.set secIdx (toSplit.take splitWordIdx)) (secIdx + 1) [[['|']]])
    (secIdx + 2) (toSplit.drop splitWordIdx)

/-- `_insert_volpiano_barline`. -/
def insertVolpianoBarline (secs : List VSec) (secIdx splitWordIdx : Nat) :
    List VSec :=
  let toSplit := secs.getD secIdx []
  pyInsert
    (pyInsert (secs.set secIdx (toSplit.take splitWordIdx)) (secIdx + 1) [["3---".toList]])
    (secIdx + 2) (toSplit.drop splitWordIdx)

/-- `sum(section.is_barline for section in syllabified_text)`, left to
right, propagating `IndexError` from `is_barline`. -/
def countTextBarlines : List TSec → Except PyErr Nat
  | [] => .ok 0
  | s :: rest => do
    let b ← textIsBarline s
    let n ← countTextBarlines rest
    pure ((if b then 1 else 0) + n)

/-- `sum(section.is_barline for section in syllabified_volpiano)`. -/
def countVolBarlines : List VSec → Except PyErr Nat
  | [] => .ok 0
  | s :: rest => do
    let b ← volIsBarline s
    let n ← countVolBarlines rest
    pure ((if b then 1 else 0) + n)

/-- Python `max` of a list of naturals (`ValueError` on an empty list is
handled at the call site). -/
def maxOfList : List Nat → Nat
  | [] => 0
  | x :: xs => max x (maxOfList xs)

/-- Python `list.index`: the first index holding the value. -/
def firstIdxOf (x : Nat) : List Nat → Nat
  | [] => 0
  | y :: ys => if y = x then 0 else 1 + firstIdxOf x ys

/-- The section padding after `_infer_barlines`' loop: make the section
counts equal by appending barline or empty sections mirroring the longer
side's extra sections. -/
def padSections (st : List TSec) (sv : List VSec) :
    Except PyErr (List TSec × List VSec) := do
  if st.length > sv.length then
    let extra ← (st.drop sv.length).mapM textIsBarline
    pure (st, sv ++ extra.map fun b => if b then [["3---".toList]] else [[[]]])
  else
    let extra ← (sv.drop st.length).mapM volIsBarline
    pure (st ++ extra.map (fun b => if b then [[['|']]] else [[[]]]), sv)

/-- One body of the `while num_barlines_text != num_barlines_volpiano` loop
of `_infer_barlines` (with the recursive continuation abstracted out):
compute the per-section word-count differences, `break` to the padding stage
when the maximal difference is zero, and otherwise insert a barline on the
side with fewer barlines and recount both sides (text first, exactly as the
source does). -/
def inferBarlinesStep
    (recur : List TSec → List VSec → Nat → Nat → Except PyErr (List TSec × List VSec))
    (st : List TSec) (sv : List VSec) (bt bv : Nat) :
    Except PyErr (List TSec × List VSec) :=
  let diffs := (st.zip sv).map fun p => Nat.dist p.1.length p.2.length
  if diffs = [] then .error .valueError -- Python `max([])`
  else
    let m := maxOfList diffs
    let idx := firstIdxOf m diffs
    if m = 0 then padSections st sv
    else if bt > bv then
      let sv' := insertVolpianoBarline sv idx (st.getD idx []).length
      match countTextBarlines st, countVolBarlines sv' with
      | .ok bt', .ok bv' => recur st sv' bt' bv'
      | .error e, _ => .error e
      | _, .error e => .error e
    else
      let st' := insertTextBarline st idx (sv.getD idx []).length
      match countTextBarlines st', countVolBarlines sv with
      | .ok bt', .ok bv' => recur st' sv bt' bv'
      | .error e, _ => .error e
      | _, .error e => .error e

/-- The `while` loop of `_infer_barlines`.  The Python loop has no iteration
cap; the fuel is a modelling device (`.error .repairNotConverged` marks its
exhaustion, shown below to be unreachable with the fuel `inferBarlines`
supplies on tokenizer outputs).  `bt`/`bv` are the barline counts carried by
the loop. -/
def inferBarlinesLoop :
    Nat → List TSec → List VSec → Nat → Nat → Except PyErr (List TSec × List VSec)
  | fuel, st, sv, bt, bv =>
    if bt = bv then padSections st sv
    else
      match fuel with
      | 0 => .error .repairNotConverged
      | fuel + 1 => inferBarlinesStep (inferBarlinesLoop fuel) st sv bt bv

/-- `_infer_barlines`, entered with fuel `|bt - bv|` (each executed loop
body strictly shrinks that distance on tokenizer outputs, which is proved
below). -/
def inferBarlines (st : List TSec) (sv : List VSec) :
    Except PyErr (List TSec × List VSec) := do
  let bt ← countTextBarlines st
  let bv ← countVolBarlines sv
  inferBarlinesLoop (Nat.dist bt bv) st sv bt bv

/-- The text-tokenization stage of `align_text_and_volpiano`: try
`syllabify_text` with `clean_text=False`; on a `ValueError` (which includes
`LatinError`) retry with `clean_text=True` and force the review flag.
Returns the sections and the review flag so far. -/
def alignTokenizeText (chantText : List Char) (textPresyllabified : Bool) :
    Except PyErr (List TSec × Bool) :=
  match syllabifyText chantText false textPresyllabified with
  | .ok r => Except.ok (r.1, r.2)
  | .error e =>
    if e = .valueError ∨ e = .latinError then
      (syllabifyText chantText true textPresyllabified).map fun r => (r.1, true)
    else .error e

/-- The volpiano stage of `align_text_and_volpiano`: preprocess, make the
string nonempty, detach (or default) the final barline, and syllabify.
Returns the sections, the final barline character and this stage's review
flag contribution. -/
def alignVolpianoSections (volpiano : List Char) : List VSec × Char × Bool :=
  let (preVol0, volCharsRmvd) := prepareVolpianoForSyllabification volpiano
  let preVol1 := if preVol0 = [] then ['-'] else preVol0
  let finBar0 := preVol1.getLastD ' '
  let (preVol2, finBar, flag2) :=
    if finBar0 ≠ '3' ∧ finBar0 ≠ '4' then (preVol1, '3', true)
    else (preVol1.dropLast, finBar0, false)
  let (sv, improper) := syllabifyVolpiano preVol2
  (sv, finBar, volCharsRmvd || flag2 || improper)

/-- The zipping stage of `align_text_and_volpiano`: barline inference when
the section counts differ, then section-by-section alignment between clef
and final barline. -/
def alignZipStage (st : List TSec) (sv : List VSec) (finBar : Char)
    (flagIn : Bool) : Except PyErr (List (Syl × Syl) × Bool) :=
  match (if st.length ≠ sv.length then
      (inferBarlines st sv).map fun r => (r.1, r.2, true)
    else .ok (st, sv, false)) with
  | .error e => .error e
  | .ok (st2, sv2, flag4) =>
    match (sv2.zip st2).mapM fun p => alignSection p.2 p.1 with
    | .error e => .error e
    | .ok aligned =>
      .ok ((([] : Syl), "1---".toList) ::
        ((aligned.map Prod.fst).flatten ++ [(([] : Syl), [finBar])]),
        flagIn || flag4 || aligned.any Prod.snd)

/-- `align_text_and_volpiano`. -/
def alignTextAndVolpiano (chantText volpiano : List Char)
    (textPresyllabified : Bool) : Except PyErr (List (Syl × Syl) × Bool) :=
  match alignTokenizeText chantText textPresyllabified with
  | .error e => .error e
  | .ok (st, flag0) =>
    match alignVolpianoSections volpiano with
    | (sv, finBar, flagVol) => alignZipStage st sv finBar (flag0 || flagVol)

/-! ## Spec-side vocabulary

Definitions taken from the spec's words (not from the code), used to state
claims that compare the two. -/

/-- The text markup alphabet exactly as claim C4 (spec §6) lists it:
letters, space, `#`, `~`, `{`, `}`, `[`, `]`, `|`, `-`. -/
def isClaimedTextChar (c : Char) : Bool :=
  isLatinLetterChar c || c ∈ ['#', '~', '{', '}', '[', ']', '|', '-', ' ']

/-- Barline tokens of a raw text string (`|`) as C1 counts them. -/
def textBarlineTokenCount (text : List Char) : Nat := text.count '|'

/-- Barline tokens of a raw volpiano string (`3` and `4`) as C1 counts
them. -/
def volpianoBarlineTokenCount (volpiano : List Char) : Nat :=
  volpiano.count '3' + volpiano.count '4'

/-- Concatenation of a syllable list with the boundary hyphen of each
non-final syllable removed (the round-trip reading of C9). -/
def joinSyls : List (List Char) → List Char
  | [] => []
  | [s] => s
  | s :: rest => s.dropLast ++ joinSyls rest

/-- Every syllable of every word of every section, concatenated in order
(the losslessness reading of C10). -/
def flattenSections (secs : List (List Word)) : List Char :=
  (secs.map flattenToStr).flatten

/-! ## Invariants used in the barline-inference analysis -/

/-- No word of the section other than its first has a first syllable whose
first character lies in `bad` (so no non-initial word of the section can
make a section created from it by the barline-splitting repair count as a
barline section). -/
def noLateBarline (bad : List Char) (sec : List Word) : Prop :=
  ∀ j w, 1 ≤ j → sec[j]? = some w →
    ∀ s, w.head? = some s → ∀ c, s.head? = some c → c ∉ bad

/-- Every text section satisfies `noLateBarline` for `|`: splitting any
section at any word index never creates a second section that `is_barline`
counts. -/
def InvText (st : List TSec) : Prop := ∀ sec ∈ st, noLateBarline ['|'] sec

/-- Every volpiano section satisfies `noLateBarline` for `3`/`4`. -/
def InvVol (sv : List VSec) : Prop := ∀ sec ∈ sv, noLateBarline ['3', '4'] sec

/-! # Theorems -/

/-! ## Scanner partition lemmas -/

theorem volSplitAux_flatten :
    ∀ (n : Nat) (acc s : List Char), s.length ≤ n →
      (volSplitAux acc s).flatten = acc ++ s := by
  intro n
  induction n with
  | zero =>
    intro acc s h
    have : s = [] := List.length_eq_zero.mp (Nat.le_zero.mp h)
    subst this
    rw [volSplitAux_unfold]
    simp
  | succ n ih =>
    intro acc s h
    rw [volSplitAux_unfold]
    match s with
    | [] => simp
    | c :: cs =>
      simp only [List.length_cons] at h
      cases hm : volSectionMatchAt (c :: cs) with
      | some p =>
        obtain ⟨m, rest⟩ := p
        obtain ⟨hne, heq⟩ := volSectionMatchAt_rest hm
        have hl := volSectionMatchAt_rest_length hm
        simp only [List.length_cons] at hl
        simp only [hm, List.flatten_cons]
        rw [ih [] rest (by omega), List.nil_append, heq]
      | none =>
        simp only [hm]
        rw [ih (acc ++ [c]) cs (by omega)]
        simp

theorem findIdx?_some_getD {p : Char → Bool} :
    ∀ {l : List Char} {i : Nat}, l.findIdx? p = some i →
      i < l.length ∧ p (l.getD i ' ') = true := by
  intro l
  induction l with
  | nil => intro i h; simp [List.findIdx?] at h
  | cons c cs ih =>
    intro i h
    rw [List.findIdx?_cons] at h
    split at h
    · cases h
      simpa using by assumption
    · rw [List.findIdx?_succ] at h
      simp only [Option.map_eq_some'] at h
      obtain ⟨j, hj, rfl⟩ := h
      obtain ⟨h1, h2⟩ := ih hj
      exact ⟨by simpa using h1, by simpa using h2⟩

theorem flatten_filter_ne_nil (l : List (List Char)) :
    (l.filter (· ≠ [])).flatten = l.flatten := by
  induction l with
  | nil => rfl
  | cons x xs ih =>
    rw [List.filter_cons]
    split
    · rw [List.flatten_cons, List.flatten_cons, ih]
    · rename_i hcond
      have hx : x = [] := by simpa using hcond
      subst hx
      rw [ih]
      simp

theorem firstNewlineIdx_eq_length {s : List Char} (h : '\n' ∉ s) :
    firstNewlineIdx s = s.length := by
  unfold firstNewlineIdx
  cases hf : s.findIdx? (· = '\n') with
  | none => rfl
  | some i =>
    obtain ⟨h1, h2⟩ := findIdx?_some_getD hf
    simp only [decide_eq_true_eq] at h2
    have hmem : s.getD i ' ' ∈ s := by
      rw [List.getD_eq_getElem s ' ' h1]
      exact List.getElem_mem h1
    exact absurd (h2 ▸ hmem) h

theorem tryWordMatch_isSome {s : List Char} (hnl : '\n' ∉ s) (hne : s ≠ []) :
    ∃ w rest, tryWordMatch s = some (w, rest) := by
  unfold tryWordMatch
  cases hf : findTripleHyphen s with
  | some m => exact ⟨_, _, rfl⟩
  | none =>
    rw [firstNewlineIdx_eq_length hnl]
    simp [List.length_pos.mpr hne]

theorem trySylMatch_isSome {s : List Char} (hnl : '\n' ∉ s) (hne : s ≠ []) :
    ∃ w rest, trySylMatch s = some (w, rest) := by
  unfold trySylMatch
  cases hf : findDoubleHyphen s with
  | some m => exact ⟨_, _, rfl⟩
  | none =>
    rw [firstNewlineIdx_eq_length hnl]
    simp [List.length_pos.mpr hne]

theorem findWords_flatten :
    ∀ (n : Nat) (s : List Char), s.length ≤ n → '\n' ∉ s →
      (findWords s).flatten = s := by
  intro n
  induction n with
  | zero =>
    intro s h _
    have : s = [] := List.length_eq_zero.mp (Nat.le_zero.mp h)
    subst this
    rfl
  | succ n ih =>
    intro s h hnl
    match s with
    | [] => rfl
    | c :: cs =>
      rw [findWords_unfold]
      obtain ⟨w, rest, hm⟩ := tryWordMatch_isSome hnl (by simp)
      obtain ⟨heq, hwne⟩ := tryWordMatch_parts hm
      have hl := tryWordMatch_rest_length hm
      simp only [List.length_cons] at hl h
      simp only [hm, List.flatten_cons]
      rw [ih rest (by omega)
        (fun hx => hnl (heq ▸ List.mem_append_right w hx))]
      exact heq

theorem findSyls_flatten :
    ∀ (n : Nat) (s : List Char), s.length ≤ n → '\n' ∉ s →
      (findSyls s).flatten = s := by
  intro n
  induction n with
  | zero =>
    intro s h _
    have : s = [] := List.length_eq_zero.mp (Nat.le_zero.mp h)
    subst this
    rfl
  | succ n ih =>
    intro s h hnl
    match s with
    | [] => rfl
    | c :: cs =>
      rw [findSyls_unfold]
      obtain ⟨w, rest, hm⟩ := trySylMatch_isSome hnl (by simp)
      obtain ⟨heq, hwne⟩ := trySylMatch_parts hm
      have hl := trySylMatch_rest_length hm
      simp only [List.length_cons] at hl h
      simp only [hm, List.flatten_cons]
      rw [ih rest (by omega)
        (fun hx => hnl (heq ▸ List.mem_append_right w hx))]
      exact heq

theorem syllabifyVolpianoSection_flatten (i : Nat) (sec : List Char)
    (hnl : '\n' ∉ sec) :
    flattenToStr (syllabifyVolpianoSection i sec).1 = sec := by
  unfold syllabifyVolpianoSection
  split
  · simp [flattenToStr]
  · simp only [flattenToStr, List.map_map]
    have hws : ∀ ws ∈ findWords sec, (findSyls ws).flatten = ws := by
      intro ws hws
      have hsub : ∀ x ∈ ws, x ∈ sec := by
        intro x hx
        have : x ∈ (findWords sec).flatten := List.mem_flatten.mpr ⟨ws, hws, hx⟩
        rwa [findWords_flatten sec.length sec le_rfl hnl] at this
      exact findSyls_flatten ws.length ws le_rfl fun hx => hnl (hsub _ hx)
    calc ((findWords sec).map ((fun w => w.flatten) ∘ findSyls)).flatten
        = ((findWords sec).map (fun a => a)).flatten := by
          rw [List.map_congr_left fun a ha => by simpa using hws a ha]
      _ = sec := by
          rw [List.map_id']
          exact findWords_flatten sec.length sec le_rfl hnl

theorem map_fst_mapIdx_flattenToStr :
    ∀ (f : Nat → List Char → VSec × Bool) (l : List (List Char)),
      (∀ i sec, sec ∈ l → flattenToStr (f i sec).1 = sec) →
      (((l.mapIdx f).map Prod.fst).map flattenToStr).flatten = l.flatten := by
  intro f l
  induction l generalizing f with
  | nil => intro _; rfl
  | cons x xs ih =>
    intro hf
    rw [List.mapIdx_cons]
    simp only [List.map_cons, List.flatten_cons]
    rw [hf 0 x (by simp), ih (fun i => f (i + 1))
      (fun i sec hs => hf (i + 1) sec (by simp [hs]))]

/-! ## C10: `syllabify_volpiano` is lossless -/

/-- C10: on a volpiano string of valid characters, `syllabify_volpiano`
is lossless: concatenating, in order, every syllable of every word of
every returned section reproduces the input exactly — no characters are
dropped or invented. -/
theorem C10_syllabify_volpiano_lossless (volpiano : List Char)
    (h : ∀ c ∈ volpiano, isValidVolpianoChar c) :
    flattenSections (syllabifyVolpiano volpiano).1 = volpiano := by
  have hnl : '\n' ∉ volpiano := fun hx => absurd (h '\n' hx) (by decide)
  have hsecs : (volpianoSections volpiano).flatten = volpiano := by
    unfold volpianoSections
    rw [flatten_filter_ne_nil, volSplitAux_flatten volpiano.length [] volpiano le_rfl,
      List.nil_append]
  unfold syllabifyVolpiano flattenSections
  simp only
  rw [map_fst_mapIdx_flattenToStr _ _ ?_, hsecs]
  intro i sec hs
  refine syllabifyVolpianoSection_flatten i sec fun hx => hnl ?_
  rw [← hsecs]
  exact List.mem_flatten.mpr ⟨sec, hs, hx⟩

theorem C10_witness :
    flattenSections (syllabifyVolpiano "f---g--h---3---j---".toList).1 =
      "f---g--h---3---j---".toList :=
  C10_syllabify_volpiano_lossless "f---g--h---3---j---".toList (by decide)

/-! ## C9: syllable round-trip -/

/-- The pieces of `split_word_by_syl_bounds` after the first: a helper for
reasoning by induction over the boundary list. -/
def tailPieces (w : List Char) : Nat → List Nat → List (List Char)
  | b, [] => [w.drop b]
  | b, b1 :: rest => (pyExtract w b b1 ++ ['-']) :: tailPieces w b1 rest

theorem tailPieces_ne_nil (w : List Char) (b : Nat) (rest : List Nat) :
    tailPieces w b rest ≠ [] := by
  cases rest <;> simp [tailPieces]

theorem zipMap_tailPieces (w : List Char) :
    ∀ (rest : List Nat) (b0 : Nat),
      ((((b0 :: rest).zip rest).map fun bb => pyExtract w bb.1 bb.2 ++ ['-']) ++
        [w.drop ((b0 :: rest).getLast (by simp))]) = tailPieces w b0 rest := by
  intro rest
  induction rest with
  | nil => intro b0; simp [tailPieces]
  | cons b1 rest ih =>
    intro b0
    simp only [List.zip_cons_cons, List.map_cons, List.cons_append, tailPieces,
      List.cons.injEq, true_and]
    rw [← ih b1]
    congr 2

theorem splitWordBySylBounds_eq_tailPieces (w : List Char) (b0 : Nat)
    (rest : List Nat) :
    splitWordBySylBounds w (b0 :: rest) =
      (w.take b0 ++ ['-']) :: tailPieces w b0 rest := by
  unfold splitWordBySylBounds
  exact congrArg _ (zipMap_tailPieces w rest b0)

theorem joinSyls_cons_of_ne (s : List Char) (L : List (List Char))
    (h : L ≠ []) : joinSyls (s :: L) = s.dropLast ++ joinSyls L := by
  cases L with
  | nil => exact absurd rfl h
  | cons t ts => rfl

theorem pyExtract_append_drop (w : List Char) {a b : Nat} (h : a ≤ b) :
    pyExtract w a b ++ w.drop b = w.drop a := by
  unfold pyExtract
  rw [show w.drop b = (w.drop a).drop (b - a) by
    rw [List.drop_drop]; congr 1; omega]
  exact List.take_append_drop _ _

theorem joinSyls_tailPieces (w : List Char) :
    ∀ (rest : List Nat) (b0 : Nat), List.Chain' (· ≤ ·) (b0 :: rest) →
      joinSyls (tailPieces w b0 rest) = w.drop b0 := by
  intro rest
  induction rest with
  | nil => intro b0 _; simp [tailPieces, joinSyls]
  | cons b1 rest ih =>
    intro b0 hch
    rw [show tailPieces w b0 (b1 :: rest) =
        (pyExtract w b0 b1 ++ ['-']) :: tailPieces w b1 rest from rfl]
    rw [joinSyls_cons_of_ne _ _ (tailPieces_ne_nil w b1 rest),
      List.dropLast_concat, ih b1 hch.tail]
    exact pyExtract_append_drop w (List.chain'_cons.mp hch).1

/-- Splitting at a `≤`-sorted boundary list and rejoining (dropping the
boundary hyphen of each non-final syllable) reproduces the word. -/
theorem joinSyls_splitWordBySylBounds (w : List Char) (bs : List Nat)
    (h : List.Chain' (· ≤ ·) bs) :
    joinSyls (splitWordBySylBounds w bs) = w := by
  match bs with
  | [] => rfl
  | b0 :: rest =>
    rw [splitWordBySylBounds_eq_tailPieces,
      joinSyls_cons_of_ne _ _ (tailPieces_ne_nil w b0 rest),
      List.dropLast_concat, joinSyls_tailPieces w rest b0 h]
    exact List.take_append_drop b0 w

theorem gsbpCore_le (base : Nat) (l2 : List Char) :
    gsbpCore base l2 ≤ base + 1 := by
  unfold gsbpCore
  split
  · split <;> omega
  · split
    · omega
    · split
      · omega
      · split <;> omega

theorem getSylBoundPosition_le (l : List Char) :
    getSylBoundPosition l ≤ l.length := by
  unfold getSylBoundPosition
  split
  · omega
  · rename_i h0
    split
    · omega
    · split
      · omega
      · rename_i h1 h2
        have htail : l.tail.length = l.length - 1 := by
          cases l <;> simp_all
        split
        · split
          · omega
          · have := gsbpCore_le 1 l.tail
            omega
        · have := gsbpCore_le 0 l
          omega

theorem posFrom_mem_lower :
    ∀ (l : List Char) (i : Nat), ∀ x ∈ posFrom i l, i ≤ x := by
  intro l
  induction l with
  | nil => intro i x hx; simp [posFrom] at hx
  | cons c cs ih =>
    intro i x hx
    by_cases hc : isVowelChar c
    · rw [show posFrom i (c :: cs) = i :: posFrom (i + 1) cs by
        simp [posFrom, hc]] at hx
      rcases List.mem_cons.mp hx with rfl | hx
      · omega
      · have := ih (i + 1) x hx
        omega
    · rw [show posFrom i (c :: cs) = posFrom (i + 1) cs by
        simp [posFrom, hc]] at hx
      have := ih (i + 1) x hx
      omega

theorem posFrom_chain :
    ∀ (l : List Char) (i : Nat), List.Chain' (· < ·) (posFrom i l) := by
  intro l
  induction l with
  | nil => intro i; simp [posFrom]
  | cons c cs ih =>
    intro i
    unfold posFrom
    by_cases hc : isVowelChar c
    · rw [show (if isVowelChar c = true then i :: posFrom (i + 1) cs
          else posFrom (i + 1) cs) = i :: posFrom (i + 1) cs by simp [hc]]
      rw [List.chain'_cons']
      refine ⟨fun b hb => ?_, ih (i + 1)⟩
      have hmem : b ∈ posFrom (i + 1) cs := by
        cases hh : posFrom (i + 1) cs with
        | nil => simp [hh] at hb
        | cons y ys =>
          rw [hh] at hb
          simp only [List.head?_cons, Option.mem_def, Option.some.injEq] at hb
          simp [hh, hb]
      have := posFrom_mem_lower cs (i + 1) b hmem
      omega
    · rw [show (if isVowelChar c = true then i :: posFrom (i + 1) cs
          else posFrom (i + 1) cs) = posFrom (i + 1) cs by simp [hc]]
      exact ih (i + 1)

theorem loopBounds_cons (stem : List Char) (v1 v2 : Nat) (tl : List Nat)
    (p : Nat) :
    loopBounds stem (v1 :: v2 :: tl) p =
      (if v2 = v1 + 1 && pyExtract stem v1 (v2 + 1) ∈ diphthongList then []
       else [v1 + 1 + getSylBoundPosition (pyExtract stem (v1 + 1) v2) + p]) ++
        loopBounds stem (v2 :: tl) p := by
  simp only [loopBounds, List.tail_cons, List.zip_cons_cons, List.filterMap_cons]
  by_cases hc : (v2 = v1 + 1 && pyExtract stem v1 (v2 + 1) ∈ diphthongList) = true
  · simp only [hc, if_true]
    simp
  · simp only [Bool.not_eq_true] at hc
    simp only [hc, Bool.false_eq_true, if_false]
    simp

theorem loopBounds_mem_gt_p (stem : List Char) (p : Nat) :
    ∀ (vp : List Nat), ∀ x ∈ loopBounds stem vp p, p < x := by
  intro vp
  match vp with
  | [] => intro x hx; simp [loopBounds] at hx
  | [v] => intro x hx; simp [loopBounds] at hx
  | v1 :: v2 :: tl =>
    intro x hx
    rw [loopBounds_cons] at hx
    rcases List.mem_append.mp hx with hx | hx
    · split at hx
      · simp at hx
      · simp at hx
        omega
    · exact loopBounds_mem_gt_p stem p (v2 :: tl) x hx

theorem loopBounds_mem_lower (stem : List Char) (p : Nat) :
    ∀ (l : List Nat) (v : Nat), List.Chain' (· < ·) (v :: l) →
      ∀ x ∈ loopBounds stem (v :: l) p, v + p < x := by
  intro l
  induction l with
  | nil => intro v _ x hx; simp [loopBounds] at hx
  | cons v2 tl ih =>
    intro v hch x hx
    rw [loopBounds_cons] at hx
    rcases List.mem_append.mp hx with hx | hx
    · split at hx
      · simp at hx
      · simp at hx
        omega
    · have hv12 := (List.chain'_cons.mp hch).1
      have := ih v2 hch.tail x hx
      omega

theorem loopBounds_head_le (stem : List Char) (p : Nat) (v1 v2 : Nat)
    (h : v1 < v2) :
    v1 + 1 + getSylBoundPosition (pyExtract stem (v1 + 1) v2) + p ≤ v2 + p := by
  have h1 : getSylBoundPosition (pyExtract stem (v1 + 1) v2) ≤
      (pyExtract stem (v1 + 1) v2).length := getSylBoundPosition_le _
  have h2 : (pyExtract stem (v1 + 1) v2).length ≤ v2 - (v1 + 1) := by
    unfold pyExtract
    simp [List.length_take]
  omega

theorem loopBounds_chain (stem : List Char) (p : Nat) :
    ∀ (vp : List Nat), List.Chain' (· < ·) vp →
      List.Chain' (· ≤ ·) (loopBounds stem vp p) := by
  intro vp
  match vp with
  | [] => intro _; simp [loopBounds]
  | [v] => intro _; simp [loopBounds]
  | v1 :: v2 :: tl =>
    intro hch
    rw [loopBounds_cons]
    have hrest := loopBounds_chain stem p (v2 :: tl) hch.tail
    split
    · simpa using hrest
    · simp only [List.singleton_append]
      rw [List.chain'_cons']
      refine ⟨fun b hb => ?_, hrest⟩
      have hbmem : b ∈ loopBounds stem (v2 :: tl) p := by
        cases hh : loopBounds stem (v2 :: tl) p with
        | nil => simp [hh] at hb
        | cons y ys => simp [hh] at hb; simp [hh, hb]
      have hgt := loopBounds_mem_lower stem p tl v2 hch.tail b hbmem
      have hle := loopBounds_head_le stem p v1 v2 (List.chain'_cons.mp hch).1
      omega

theorem syllabifyCore_chain (w : List Char) :
    List.Chain' (· ≤ ·) (syllabifyCore w) := by
  unfold syllabifyCore
  split
  · simp
  · have hchvp := posFrom_chain
      (replaceSemivowelsAndV ((w.drop (getPref w).length).map
        fun c => if c = 'j' then 'i' else c)) 0
    dsimp only
    split
    · split <;> simp
    · split <;> rename_i hp
      · simp only [List.nil_append]
        exact loopBounds_chain _ _ _ hchvp
      · simp only [List.singleton_append]
        rw [List.chain'_cons']
        refine ⟨fun b hb => ?_, loopBounds_chain _ _ _ hchvp⟩
        have hbmem : b ∈ loopBounds (w.drop (getPref w).length)
            (getVowelPositions (w.drop (getPref w).length))
            (getPref w).length := by
          cases hh : loopBounds (w.drop (getPref w).length)
              (getVowelPositions (w.drop (getPref w).length))
              (getPref w).length with
          | nil => simp [hh] at hb
          | cons y ys => simp [hh] at hb; simp [hh, hb]
        have := loopBounds_mem_gt_p (w.drop (getPref w).length)
          (getPref w).length _ b hbmem
        omega

/-- C9: for every word `syllabify_word` accepts, splitting at the returned
boundaries and rejoining the syllables (with the trailing hyphen of each
non-final syllable removed) reproduces the word exactly. -/
theorem C9_syllabify_word_round_trip (w : List Char) (bs : List Nat)
    (h : syllabifyWord w = .ok bs) :
    joinSyls (splitWordBySylBounds w bs) = w := by
  unfold syllabifyWord at h
  split at h
  · cases h
    exact joinSyls_splitWordBySylBounds w _ (syllabifyCore_chain _)
  · cases h

theorem C9_witness :
    joinSyls (splitWordBySylBounds "Benedictus".toList [2, 4, 7]) =
      "Benedictus".toList :=
  C9_syllabify_word_round_trip "Benedictus".toList [2, 4, 7] (by decide)

/-! ## C2: tokenizer output shape -/

theorem dropWhile_head_false {p : Char → Bool} :
    ∀ {l : List Char} {c : Char} {cs : List Char},
      l.dropWhile p = c :: cs → p c = false := by
  intro l
  induction l with
  | nil => intro c cs h; simp [List.dropWhile] at h
  | cons x xs ih =>
    intro c cs h
    rw [List.dropWhile_cons] at h
    split at h
    · exact ih h
    · cases h
      rename_i hpx
      simpa using hpx

theorem pyStrip_head_not_ws {l : List Char} (h : pyStrip l ≠ []) :
    isPyWhitespace ((pyStrip l).headD ' ') = false := by
  unfold pyStrip at h ⊢
  cases ha : l.dropWhile isPyWhitespace with
  | nil => rw [ha] at h; simp at h
  | cons c cs =>
    have hc : isPyWhitespace c = false := dropWhile_head_false ha
    have hd : (c :: cs).reverse.dropWhile isPyWhitespace ≠ [] := by
      simp only [ne_eq, List.dropWhile_eq_nil_iff]
      push_neg
      exact ⟨c, by simp, by simp [hc]⟩
    obtain ⟨pre, hpre⟩ := (List.dropWhile_suffix (l := (c :: cs).reverse)
      isPyWhitespace)
    have hlast : ((c :: cs).reverse.dropWhile isPyWhitespace).getLast? = some c := by
      have h1 : (pre ++ (c :: cs).reverse.dropWhile isPyWhitespace).getLast? =
          some c := by
        rw [hpre, List.reverse_cons, List.getLast?_concat]
      rw [List.getLast?_append] at h1
      cases hh : ((c :: cs).reverse.dropWhile isPyWhitespace).getLast? with
      | none => exact absurd (List.getLast?_eq_none_iff.mp hh) hd
      | some y => rw [hh] at h1; simpa using h1
    rw [show ((c :: cs).reverse.dropWhile isPyWhitespace).reverse.headD ' ' =
        c by rw [List.headD_eq_head?_getD, List.head?_reverse, hlast]; rfl]
    exact hc

theorem splitOnChar_filter_ne_nil {s : List Char} (hne : s ≠ [])
    (hhead : s.headD ' ' ≠ ' ') :
    (splitOnChar ' ' s).filter (· ≠ []) ≠ [] := by
  match s with
  | c :: cs =>
    have hc : c ≠ ' ' := by simpa using hhead
    cases hsc : splitOnChar ' ' cs with
    | nil => simp [splitOnChar, hc, hsc, List.filter_cons]
    | cons w ws => simp [splitOnChar, hc, hsc, List.filter_cons]

theorem splitWordBySylBounds_ne_nil (w : List Char) (bs : List Nat) :
    splitWordBySylBounds w bs ≠ [] := by
  cases bs <;> simp [splitWordBySylBounds]

theorem presylSplit_ne_nil (prepared : List Char) : presylSplit prepared ≠ [] := by
  simp [presylSplit]

theorem reattachHyphens_ne_nil (syllabified : Word) (s e : Bool)
    (h : syllabified ≠ []) : reattachHyphens syllabified s e ≠ [] := by
  match syllabified, h with
  | w :: ws, _ => cases s <;> cases e <;> simp [reattachHyphens]

theorem syllabifyTextWord_ne_nil {w : List Char} {p : Bool} {word : Word}
    (h : syllabifyTextWord w p = .ok word) : word ≠ [] := by
  unfold syllabifyTextWord at h
  split at h
  · cases h
    simp
  · split at h
    · cases h
      exact splitWordBySylBounds_ne_nil _ _
    · split at h
      rename_i prepared startHy endHy heq
      split at h
      · cases h
      · rename_i syllabified hsyl
        cases h
        refine reattachHyphens_ne_nil _ _ _ ?_
        split at hsyl
        · cases hsyl
          exact presylSplit_ne_nil _
        · cases hb : syllabifyWord prepared with
          | error e => rw [hb] at hsyl; cases hsyl
          | ok bs =>
            rw [hb] at hsyl
            have h2 : (Except.ok (splitWordBySylBounds prepared bs) :
                Except PyErr Word) = .ok syllabified := hsyl
            cases h2
            exact splitWordBySylBounds_ne_nil _ _

theorem mapM_ok_spec {α β : Type} {f : α → Except PyErr β} :
    ∀ {l : List α} {l' : List β}, l.mapM f = .ok l' →
      (l' = [] ↔ l = []) ∧ ∀ y ∈ l', ∃ x ∈ l, f x = .ok y := by
  intro l
  induction l with
  | nil =>
    intro l' h
    rw [List.mapM_nil] at h
    have h2 : (Except.ok ([] : List β) : Except PyErr (List β)) = .ok l' := h
    cases h2
    simp
  | cons a as ih =>
    intro l' h
    rw [List.mapM_cons] at h
    cases hfa : f a with
    | error e =>
      rw [hfa] at h
      have h2 : (Except.error e : Except PyErr (List β)) = .ok l' := h
      cases h2
    | ok b =>
      rw [hfa] at h
      cases hm : as.mapM f with
      | error e =>
        rw [hm] at h
        have h2 : (Except.error e : Except PyErr (List β)) = .ok l' := h
        cases h2
      | ok bs =>
        rw [hm] at h
        have h2 : (Except.ok (b :: bs) : Except PyErr (List β)) = .ok l' := h
        cases h2
        obtain ⟨hiff, hmem⟩ := ih hm
        refine ⟨by simp, ?_⟩
        intro y hy
        rcases List.mem_cons.mp hy with rfl | hy
        · exact ⟨a, by simp, hfa⟩
        · obtain ⟨x, hx, hfx⟩ := hmem y hy
          exact ⟨x, by simp [hx], hfx⟩

theorem findWords_mem_ne_nil :
    ∀ (n : Nat) (s : List Char), s.length ≤ n → ∀ w ∈ findWords s, w ≠ [] := by
  intro n
  induction n with
  | zero =>
    intro s h w hw
    have : s = [] := List.length_eq_zero.mp (Nat.le_zero.mp h)
    subst this
    simp [findWords, findWordsGo] at hw
  | succ n ih =>
    intro s h w hw
    match s with
    | [] => simp [findWords, findWordsGo] at hw
    | c :: cs =>
      rw [findWords_unfold] at hw
      simp only [List.length_cons] at h
      cases hm : tryWordMatch (c :: cs) with
      | some p =>
        obtain ⟨m, rest⟩ := p
        simp only [hm] at hw
        obtain ⟨heq, hne⟩ := tryWordMatch_parts hm
        have hl := tryWordMatch_rest_length hm
        simp only [List.length_cons] at hl
        rcases List.mem_cons.mp hw with rfl | hw
        · exact hne
        · exact ih rest (by omega) w hw
      | none =>
        simp only [hm] at hw
        exact ih cs (by omega) w hw

theorem findWords_ne_nil {s : List Char} (hnl : '\n' ∉ s) (hne : s ≠ []) :
    findWords s ≠ [] := by
  match s with
  | c :: cs =>
    rw [findWords_unfold]
    obtain ⟨w, rest, hm⟩ := tryWordMatch_isSome hnl (by simp)
    simp [hm]

theorem findSyls_ne_nil {s : List Char} (hnl : '\n' ∉ s) (hne : s ≠ []) :
    findSyls s ≠ [] := by
  match s with
  | c :: cs =>
    rw [findSyls_unfold]
    obtain ⟨w, rest, hm⟩ := trySylMatch_isSome hnl (by simp)
    simp [hm]

theorem syllabifyVolpianoSection_shape (i : Nat) (sec : List Char)
    (hne : sec ≠ []) (hnl : '\n' ∉ sec) :
    (syllabifyVolpianoSection i sec).1 ≠ [] ∧
      ∀ w ∈ (syllabifyVolpianoSection i sec).1, w ≠ [] := by
  unfold syllabifyVolpianoSection
  split
  · refine ⟨by simp, ?_⟩
    intro w hw
    simp only [List.mem_singleton] at hw
    simp [hw]
  · dsimp only
    refine ⟨by simpa using findWords_ne_nil hnl hne, ?_⟩
    intro w hw
    simp only [List.mem_map] at hw
    obtain ⟨ws, hws, rfl⟩ := hw
    have hwsne : ws ≠ [] := findWords_mem_ne_nil sec.length sec le_rfl ws hws
    have hsub : '\n' ∉ ws := by
      intro hx
      refine hnl ?_
      have hmem : '\n' ∈ (findWords sec).flatten := List.mem_flatten.mpr ⟨ws, hws, hx⟩
      rwa [findWords_flatten sec.length sec le_rfl hnl] at hmem
    exact findSyls_ne_nil hsub hwsne

theorem syllabifyVolpiano_shape (volp : List Char) (hnl : '\n' ∉ volp) :
    ∀ sec ∈ (syllabifyVolpiano volp).1, sec ≠ [] ∧ ∀ w ∈ sec, w ≠ [] := by
  intro sec hsec
  unfold syllabifyVolpiano at hsec
  simp only [List.mem_map, List.mapIdx_eq_enum_map] at hsec
  obtain ⟨a, ha, rfl⟩ := hsec
  obtain ⟨⟨i, s0⟩, hs0, rfl⟩ := ha
  have hs0mem : s0 ∈ volpianoSections volp := List.snd_mem_of_mem_enum hs0
  obtain ⟨hchunks, hs0ne⟩ := List.mem_filter.mp hs0mem
  have hs0nl : '\n' ∉ s0 := by
    intro hx
    refine hnl ?_
    have hmem : '\n' ∈ (volSplitAux [] volp).flatten :=
      List.mem_flatten.mpr ⟨s0, hchunks, hx⟩
    rwa [volSplitAux_flatten volp.length [] volp le_rfl, List.nil_append] at hmem
  exact syllabifyVolpianoSection_shape i s0 (by simpa using hs0ne) hs0nl

theorem syllabifyTextSection_shape {sec : List Char} {p : Bool} {tsec : TSec}
    (hne : sec ≠ []) (hhead : isPyWhitespace (sec.headD ' ') = false)
    (h : syllabifyTextSection sec p = .ok tsec) :
    tsec ≠ [] ∧ ∀ w ∈ tsec, w ≠ [] := by
  unfold syllabifyTextSection at h
  split at h
  · have h2 : (Except.ok [[sec]] : Except PyErr TSec) = .ok tsec := h
    cases h2
    refine ⟨by simp, ?_⟩
    intro w hw
    simp only [List.mem_singleton] at hw
    simp [hw]
  · have hsp : sec.headD ' ' ≠ ' ' := by
      intro hsp
      rw [hsp] at hhead
      simp [isPyWhitespace] at hhead
    obtain ⟨hiff, hmem⟩ := mapM_ok_spec h
    refine ⟨fun htn => splitOnChar_filter_ne_nil hne hsp (hiff.mp htn), ?_⟩
    intro w hw
    obtain ⟨x, hx, hfx⟩ := hmem w hw
    exact syllabifyTextWord_ne_nil hfx

theorem syllabifyText_shape {text : List Char} {cl p : Bool} {st : List TSec}
    {adj : Bool} (h : syllabifyText text cl p = .ok (st, adj)) :
    ∀ sec ∈ st, sec ≠ [] ∧ ∀ w ∈ sec, w ≠ [] := by
  unfold syllabifyText at h
  split at h
  · cases h
  · split at h
    · cases h
    · rename_i out hout
      have h2 : st = out := by
        have h3 : (Except.ok (out,
            (spaceHashSigns (if cl then cleanTextStr text else text)).2) :
            Except PyErr (List TSec × Bool)) = .ok (st, adj) := h
        cases h3
        rfl
      subst h2
      intro sec hsec
      obtain ⟨x, hx, hfx⟩ := (mapM_ok_spec hout).2 sec hsec
      obtain ⟨hxmem, hxne⟩ := List.mem_filter.mp hx
      obtain ⟨chunk, hchunk, rfl⟩ := List.mem_map.mp hxmem
      have hxne' : pyStrip chunk ≠ [] := by simpa using hxne
      exact syllabifyTextSection_shape hxne' (pyStrip_head_not_ws hxne') hfx

/-- C2 amended: every section of `syllabify_text` (whenever it returns) and
of `syllabify_volpiano` (on newline-free input — every valid volpiano
character is newline-free; a literal newline would make the word-findall
regex skip characters and can leave a section with no words) has at least
one word, and every word of such a section has at least one syllable.  The
aligner's barline-insertion repair does not preserve this: it can create a
section with zero words, as the counterexample shows. -/
theorem C2_amended :
    (∀ (text : List Char) (cl p : Bool) (st : List TSec) (adj : Bool),
        syllabifyText text cl p = .ok (st, adj) →
        ∀ sec ∈ st, sec ≠ [] ∧ ∀ w ∈ sec, w ≠ []) ∧
    (∀ volp : List Char, '\n' ∉ volp →
        ∀ sec ∈ (syllabifyVolpiano volp).1, sec ≠ [] ∧ ∀ w ∈ sec, w ≠ []) :=
  ⟨fun _ _ _ _ _ h => syllabifyText_shape h,
   fun volp hnl => syllabifyVolpiano_shape volp hnl⟩

theorem C2_amended_witness :
    ([["Sanc-".toList, "tus".toList]] : TSec) ≠ [] ∧
    ([["f---".toList], ["g---".toList]] : VSec) ≠ [] :=
  ⟨(C2_amended.1 "Sanctus".toList false false
      [[["Sanc-".toList, "tus".toList]]] false (by decide)
      [["Sanc-".toList, "tus".toList]] (by decide)).1,
   (C2_amended.2 "f---g---".toList (by decide)
      [["f---".toList], ["g---".toList]] (by decide)).1⟩

/-! ## C8: concrete syllabifications -/

/-- C8: `syllabify_word "Benedictus"` returns `[2, 4, 7]`
(Be-ne-dic-tus), `syllabify_word "qui"` returns `[]`, and
`syllabify_word "caelum"` returns `[3]` (cae-lum: the diphthong "ae" stays
in one syllable). -/
theorem C8_syllabify_word_examples :
    syllabifyWord "Benedictus".toList = .ok [2, 4, 7] ∧
    syllabifyWord "qui".toList = .ok [] ∧
    syllabifyWord "caelum".toList = .ok [3] := by
  refine ⟨by decide, by decide, by decide⟩

/-! ## C5: `syllabify_word` error behaviour -/

/-- C5: `syllabify_word` raises (`LatinError`) exactly when the word has a
character outside `a-z`/`A-Z`; on a purely alphabetic word it returns the
boundary-index list of the lowercased word without error. -/
theorem C5_syllabify_word_error_iff (w : List Char) :
    (syllabifyWord w = .error .latinError ↔ ∃ c ∈ w, ¬ isLatinLetterChar c) ∧
    ((∀ c ∈ w, isLatinLetterChar c) →
      syllabifyWord w = .ok (syllabifyCore (w.map Char.toLower))) := by
  unfold syllabifyWord
  by_cases h : w.all isLatinLetterChar
  · rw [List.all_eq_true] at h
    simp only [if_pos (List.all_eq_true.mpr h)]
    constructor
    · constructor
      · intro hcontra
        exact absurd hcontra (by simp)
      · rintro ⟨c, hc, hnc⟩
        exact absurd (h c hc) hnc
    · intro _
      trivial
  · have h' := h
    rw [List.all_eq_true] at h'
    push_neg at h'
    obtain ⟨c, hc, hnc⟩ := h'
    simp only [if_neg h]
    constructor
    · constructor
      · intro _
        exact ⟨c, hc, by simpa using hnc⟩
      · intro _
        first
          | rfl
          | trivial
    · intro hall
      exact absurd (hall c hc) (by simpa using hnc)

/-! ## C4: `syllabify_text` character validation (corrected) -/

/-- C4 is false as stated: `"{5}"` contains `'5'`, a character outside the
claimed markup alphabet, yet `syllabify_text` with `clean=False` returns
normally (the code's `INVALID_CHAR_REGEX` is built on `\w`, which admits
digits and underscores); and with `clean=True` the call is not
raise-free — on `"a5"` cleaning leaves the digit in place and
`syllabify_word` raises `LatinError`. -/
theorem C4_counterexample :
    (¬ isClaimedTextChar '5') ∧
    syllabifyText "{5}".toList false false = .ok ([[["{5}".toList]]], false) ∧
    syllabifyText "a5".toList true false = .error .latinError := by
  refine ⟨by decide, by decide, by decide⟩

/-- C4 amended: with `clean=False`, `syllabify_text` raises `ValueError`
whenever the text has a character outside the code's alphabet `\w` plus
markup (which, unlike the claimed alphabet, admits digits and
underscores); characters inside `\w` but outside the claimed alphabet pass
this check, and can still raise `LatinError` from word syllabification
even when `clean=True`, as the counterexample shows. -/
theorem C4_amended (text : List Char) (p : Bool)
    (h : detectInvalidCharacters text = true) :
    syllabifyText text false p = .error .valueError := by
  simp [syllabifyText, h]

theorem C4_amended_witness :
    syllabifyText "a\\b".toList false false = .error .valueError :=
  C4_amended "a\\b".toList false (by decide)

/-! ## C6: the exception table (corrected) -/

/-- C6 is false as stated: "euouae" is an exception-table entry with
boundary list `[1, 2, 3, 4, 5]`, but `syllabify_word` never consults the
table — it runs the algorithmic path and returns `[1, 3]`. -/
theorem C6_counterexample :
    (exceptionsDict.find? fun e => e.1 = "euouae".toList) =
      some ("euouae".toList, [1, 2, 3, 4, 5]) ∧
    syllabifyWord "euouae".toList = .ok [1, 3] := by
  refine ⟨by decide, by decide⟩

/-- C6 amended: the exception table lives in `syllabify_text`'s word
handling, not in `syllabify_word`: a word (other than the `#` marker)
whose lowercased form is an entry of the table is split at the entry's
explicit boundaries immediately, bypassing `syllabify_word` entirely; the
match lowercases the word, so it is case-insensitive. -/
theorem C6_amended (word : List Char) (p : Bool) (e : List Char × List Nat)
    (hw : word ≠ ['#'])
    (h : (exceptionsDict.find? fun x => x.1 = word.map Char.toLower) = some e) :
    syllabifyTextWord word p = .ok (splitWordBySylBounds word e.2) := by
  simp [syllabifyTextWord, hw, h]

theorem C6_amended_witness :
    syllabifyTextWord "Euouae".toList false =
      .ok (splitWordBySylBounds "Euouae".toList [1, 2, 3, 4, 5]) :=
  C6_amended "Euouae".toList false ("euouae".toList, [1, 2, 3, 4, 5])
    (by decide) (by decide)

theorem C5_witness :
    syllabifyWord ['q', 'u', 'i', '1'] = .error .latinError ∧
    syllabifyWord ['q', 'u', 'i'] =
      .ok (syllabifyCore (['q', 'u', 'i'].map Char.toLower)) :=
  ⟨(C5_syllabify_word_error_iff ['q', 'u', 'i', '1']).1.mpr
      ⟨'1', by decide, by decide⟩,
   (C5_syllabify_word_error_iff ['q', 'u', 'i']).2 (by decide)⟩

/-! ## C7: missing-music spacing (corrected) -/

/-- C7 is false as stated: a break marker (`7`) embedded between the two
`6`s of a missing-music section is not preserved —
`adjust_missing_music_spacing_for_rendering` keeps only what follows the
final `6`. -/
theorem C7_counterexample :
    '7' ∈ "6--7--6---".toList ∧
    adjustMissingMusicSpacingForRendering "6--7--6---".toList 3 =
      .ok "6------6---".toList ∧
    '7' ∉ "6------6---".toList := by
  refine ⟨by decide, by decide, by decide⟩

theorem takeWhile_append_cons (p : Char → Bool) (l1 : List Char) (a : Char)
    (l2 : List Char) (h1 : ∀ x ∈ l1, p x = true) (h2 : p a = false) :
    (l1 ++ a :: l2).takeWhile p = l1 := by
  induction l1 with
  | nil => simp [List.takeWhile_cons, h2]
  | cons x xs ih =>
    have hx := h1 x (by simp)
    simp only [List.cons_append, List.takeWhile_cons, hx, if_true,
      List.cons.injEq, true_and]
    exact ih fun y hy => h1 y (by simp [hy])

/-- C7 amended: for a missing-music section written `6`, an interior, a
final `6` and a tail `term` (every character after the last `6`, so `term`
has no `6`), the adjusted melody is the short fixed span `6------6` when
the text length is at most 10, else `6`, exactly `L` spacer hyphens and
`6`; in both cases `term` follows and end-of-word spacing is ensured.
Break markers in `term` (the canonical place, immediately after the second
`6`) survive; those between the `6`s are dropped with the interior, as the
counterexample shows. -/
theorem C7_amended (interior term : List Char) (L : Nat)
    (hterm : '6' ∉ term) :
    adjustMissingMusicSpacingForRendering ('6' :: (interior ++ '6' :: term)) L =
      .ok (ensureEndOfWordSpacing
        ((if L ≤ 10 then "6------6".toList
          else '6' :: (List.replicate L '-' ++ ['6'])) ++ term)) := by
  have hafter : afterLastSix ('6' :: (interior ++ '6' :: term)) = term := by
    unfold afterLastSix
    rw [show ('6' :: (interior ++ '6' :: term)).reverse =
        term.reverse ++ '6' :: (interior.reverse ++ ['6']) by simp]
    rw [takeWhile_append_cons _ _ _ _
      (fun x hx => by
        simp only [List.mem_reverse] at hx
        simp only [ne_eq, decide_eq_true_eq]
        exact fun hx6 => hterm (hx6 ▸ hx))
      (by simp)]
    simp
  unfold adjustMissingMusicSpacingForRendering
  simp only [List.head?_cons, ne_eq, not_true_eq_false, if_false, hafter]
  split <;> simp_all

theorem C7_amended_witness :
    adjustMissingMusicSpacingForRendering
        ('6' :: ("--".toList ++ '6' :: "7---".toList)) 3 =
      .ok (ensureEndOfWordSpacing
        ((if 3 ≤ 10 then "6------6".toList
          else '6' :: (List.replicate 3 '-' ++ ['6'])) ++ "7---".toList)) :=
  C7_amended "--".toList "7---".toList 3 (by decide)

/-! ## C1: unequal barline counts (corrected) -/

/-- C1 is false as stated: for text `"a [x] b"` (no `|` token; its
bracketed aside also gives no barline section) against volpiano
`"1---f---3---g---3"` (two `3` tokens; one `3---` barline section), the
barline-token counts differ under either the raw-token or the
tokenized-section reading, yet `align_text_and_volpiano` returns its full
pairing list with `review_flag = false`: the section counts happen to
match, so no repair fires and nothing sets the flag. -/
theorem C1_counterexample :
    textBarlineTokenCount "a [x] b".toList ≠
      volpianoBarlineTokenCount "1---f---3---g---3".toList ∧
    alignTokenizeText "a [x] b".toList false =
      .ok ([[["a".toList]], [["[x]".toList]], [["b".toList]]], false) ∧
    countTextBarlines [[["a".toList]], [["[x]".toList]], [["b".toList]]] = .ok 0 ∧
    (alignVolpianoSections "1---f---3---g---3".toList).1 =
      [[["f---".toList]], [["3---".toList]], [["g---".toList]]] ∧
    countVolBarlines [[["f---".toList]], [["3---".toList]], [["g---".toList]]] =
      .ok 1 ∧
    alignTextAndVolpiano "a [x] b".toList "1---f---3---g---3".toList false =
      .ok ([([], "1---".toList), ("a".toList, "f---".toList),
            ("[x]".toList, "3---".toList), ("b".toList, "g---".toList),
            ([], ['3'])], false) := by
  refine ⟨by decide, by decide, by decide, by decide, by decide, by decide⟩

theorem alignZipStage_flag_of_neq {st : List TSec} {sv : List VSec}
    {finBar : Char} {flagIn : Bool} {res : List (Syl × Syl)} {flag : Bool}
    (hneq : st.length ≠ sv.length)
    (h : alignZipStage st sv finBar flagIn = .ok (res, flag)) : flag = true := by
  unfold alignZipStage at h
  rw [if_pos hneq] at h
  cases hi : inferBarlines st sv with
  | error e =>
    rw [hi] at h
    have h2 : (Except.error e : Except PyErr (List (Syl × Syl) × Bool)) =
        .ok (res, flag) := h
    cases h2
  | ok r =>
    obtain ⟨st2, sv2⟩ := r
    rw [hi] at h
    simp only [Except.map] at h
    split at h
    · rename_i e _
      cases h
    · rename_i aligned _
      have h2 : (Except.ok ((([] : Syl), "1---".toList) ::
          ((aligned.map Prod.fst).flatten ++ [(([] : Syl), [finBar])]),
          flagIn || true || aligned.any Prod.snd) :
          Except PyErr (List (Syl × Syl) × Bool)) = .ok (res, flag) := h
      cases h2
      simp

/-- C1 amended: when the tokenized text and volpiano section lists have
different lengths (so barline inference runs) and
`align_text_and_volpiano` returns at all, its full pairing list comes with
`review_flag = true`.  When the section counts happen to coincide, an
unequal barline-token count does not by itself set the flag (see the
counterexample), and the repair path can also die with an `IndexError`
instead of returning (see `C3_counterexample`). -/
theorem C1_amended (text volp : List Char) (p : Bool) (st : List TSec)
    (f0 : Bool) (sv : List VSec) (finBar : Char) (fv : Bool)
    (res : List (Syl × Syl)) (flag : Bool)
    (h1 : alignTokenizeText text p = .ok (st, f0))
    (h2 : alignVolpianoSections volp = (sv, finBar, fv))
    (hneq : st.length ≠ sv.length)
    (hok : alignTextAndVolpiano text volp p = .ok (res, flag)) :
    flag = true := by
  unfold alignTextAndVolpiano at hok
  rw [h1, h2] at hok
  exact alignZipStage_flag_of_neq hneq hok

theorem C1_amended_witness :
    (alignTokenizeText "a b | c".toList false =
      .ok ([[["a".toList], ["b".toList]], [["|".toList]], [["c".toList]]],
        false)) ∧
    (alignVolpianoSections "1---f---g---h---3".toList).1 =
      [[["f---".toList], ["g---".toList], ["h---".toList]]] ∧
    true = true := by
  refine ⟨by decide, by decide, ?_⟩
  exact C1_amended "a b | c".toList "1---f---g---h---3".toList false
    [[["a".toList], ["b".toList]], [["|".toList]], [["c".toList]]] false
    [[["f---".toList], ["g---".toList], ["h---".toList]]] '3' false
    [(([] : Syl), "1---".toList), ("a".toList, "f---".toList),
     ("b".toList, "g---".toList), ("|".toList, "3---".toList),
     ("c".toList, "h---".toList), (([] : Syl), ['3'])] true
    (by decide) (by decide) (by decide) (by decide)

/-! ## C3: the barline-inference loop (corrected) -/

/-- C3 is false as stated: the `while` loop of `_infer_barlines` carries no
iteration cap at all, and its body is not guaranteed to strictly increase
the deficient side's barline count and continue — on the tokenizer outputs
of text `"a"` and volpiano `"1---f---g---h---3---j---3"`, the first
iteration splits the one-word text section at word index 3, creating a
section with no words, and the recount then raises an uncaught
`IndexError` (not any loud repair-failure signal). -/
theorem C3_counterexample :
    inferBarlines
      [[["a".toList]]]
      [[["f---".toList], ["g---".toList], ["h---".toList]],
       [["3---".toList]], [["j---".toList]]] = .error .indexError ∧
    alignTextAndVolpiano "a".toList "1---f---g---h---3---j---3".toList false =
      .error .indexError := by
  refine ⟨by decide, by decide⟩

/-! ## C2: nonempty sections and words (corrected) -/

/-- C2 is false as stated for the repair steps: `_insert_text_barline` can
produce a section with no words.  Splitting the one-word section of text
`"a"` at word index 3 (the argument `_infer_barlines` computes for the
volpiano of `C3_counterexample`) leaves an empty third section.  (A literal
newline — outside the volpiano alphabet — also yields a volpiano section
with no words, since `.` of the word regex cannot match it.) -/
theorem C2_counterexample :
    insertTextBarline [[["a".toList]]] 0 3 =
      [[["a".toList]], [[['|']]], ([] : TSec)] ∧
    ([] : TSec) ∈ insertTextBarline [[["a".toList]]] 0 3 ∧
    (syllabifyVolpiano ['\n']).1 = [([] : VSec)] := by
  refine ⟨by decide, by decide, by decide⟩

/-! ## C3: the barline-inference loop terminates on tokenizer outputs -/

theorem except_bind_ok {α β : Type} {m : Except PyErr α} {f : α → Except PyErr β} {b : β}
    (h : (m >>= f) = .ok b) : ∃ a, m = .ok a ∧ f a = .ok b := by
  cases m with
  | error e =>
    exact Except.noConfusion (show (Except.error e : Except PyErr β) = .ok b from h)
  | ok a => exact ⟨a, rfl, h⟩

theorem except_bind_error {α β : Type} {m : Except PyErr α} {f : α → Except PyErr β}
    {e : PyErr} (h : (m >>= f) = .error e) :
    m = .error e ∨ ∃ a, m = .ok a ∧ f a = .error e := by
  cases m with
  | error e2 =>
    left
    have h2 : (Except.error e2 : Except PyErr β) = .error e := h
    cases h2
    rfl
  | ok a => exact Or.inr ⟨a, rfl, h⟩

theorem countTextBarlines_cons_ok {s : TSec} {rest : List TSec} {n : Nat}
    (h : countTextBarlines (s :: rest) = .ok n) :
    ∃ b m, textIsBarline s = .ok b ∧ countTextBarlines rest = .ok m ∧
      n = (if b then 1 else 0) + m := by
  simp only [countTextBarlines] at h
  obtain ⟨b, hb, h⟩ := except_bind_ok h
  obtain ⟨m, hm, h⟩ := except_bind_ok h
  have h2 : (Except.ok ((if b then 1 else 0) + m) : Except PyErr Nat) = .ok n := h
  cases h2
  exact ⟨b, m, hb, hm, rfl⟩

theorem countVolBarlines_cons_ok {s : VSec} {rest : List VSec} {n : Nat}
    (h : countVolBarlines (s :: rest) = .ok n) :
    ∃ b m, volIsBarline s = .ok b ∧ countVolBarlines rest = .ok m ∧
      n = (if b then 1 else 0) + m := by
  simp only [countVolBarlines] at h
  obtain ⟨b, hb, h⟩ := except_bind_ok h
  obtain ⟨m, hm, h⟩ := except_bind_ok h
  have h2 : (Except.ok ((if b then 1 else 0) + m) : Except PyErr Nat) = .ok n := h
  cases h2
  exact ⟨b, m, hb, hm, rfl⟩

theorem textIsBarline_ok {s : TSec} {b : Bool} (h : textIsBarline s = .ok b) :
    ∃ w syl c, s.head? = some w ∧ w.head? = some syl ∧ syl.head? = some c ∧
      b = decide (c = '|') := by
  unfold textIsBarline at h
  split at h
  · cases h
  · rename_i w hw
    split at h
    · cases h
    · rename_i syl hsyl
      split at h
      · cases h
      · rename_i c hc
        cases h
        exact ⟨w, syl, c, hw, hsyl, hc, rfl⟩

theorem volIsBarline_ok {s : VSec} {b : Bool} (h : volIsBarline s = .ok b) :
    ∃ w syl c, s.head? = some w ∧ w.head? = some syl ∧ syl.head? = some c ∧
      b = decide (c = '3' ∨ c = '4') := by
  unfold volIsBarline at h
  split at h
  · cases h
  · rename_i w hw
    split at h
    · cases h
    · rename_i syl hsyl
      split at h
      · cases h
      · rename_i c hc
        cases h
        exact ⟨w, syl, c, hw, hsyl, hc, rfl⟩

theorem textIsBarline_congr {s t : TSec} (h : s.head? = t.head?) :
    textIsBarline s = textIsBarline t := by
  unfold textIsBarline
  rw [h]

theorem volIsBarline_congr {s t : VSec} (h : s.head? = t.head?) :
    volIsBarline s = volIsBarline t := by
  unfold volIsBarline
  rw [h]

theorem textIsBarline_error {s : TSec} {e : PyErr} (h : textIsBarline s = .error e) :
    e = .indexError := by
  unfold textIsBarline at h
  split at h
  · cases h; rfl
  · split at h
    · cases h; rfl
    · split at h
      · cases h; rfl
      · cases h

theorem volIsBarline_error {s : VSec} {e : PyErr} (h : volIsBarline s = .error e) :
    e = .indexError := by
  unfold volIsBarline at h
  split at h
  · cases h; rfl
  · split at h
    · cases h; rfl
    · split at h
      · cases h; rfl
      · cases h

theorem countTextBarlines_error :
    ∀ {st : List TSec} {e : PyErr}, countTextBarlines st = .error e →
      e = .indexError := by
  intro st
  induction st with
  | nil =>
    intro e h
    exact Except.noConfusion (show (Except.ok 0 : Except PyErr Nat) = .error e from h)
  | cons s rest ih =>
    intro e h
    simp only [countTextBarlines] at h
    rcases except_bind_error h with hb | ⟨b, hb, h⟩
    · exact textIsBarline_error hb
    · rcases except_bind_error h with hm | ⟨m, hm, h⟩
      · exact ih hm
      · exact Except.noConfusion
          (show (Except.ok ((if b then 1 else 0) + m) : Except PyErr Nat) = .error e from h)

theorem countVolBarlines_error :
    ∀ {sv : List VSec} {e : PyErr}, countVolBarlines sv = .error e →
      e = .indexError := by
  intro sv
  induction sv with
  | nil =>
    intro e h
    exact Except.noConfusion (show (Except.ok 0 : Except PyErr Nat) = .error e from h)
  | cons s rest ih =>
    intro e h
    simp only [countVolBarlines] at h
    rcases except_bind_error h with hb | ⟨b, hb, h⟩
    · exact volIsBarline_error hb
    · rcases except_bind_error h with hm | ⟨m, hm, h⟩
      · exact ih hm
      · exact Except.noConfusion
          (show (Except.ok ((if b then 1 else 0) + m) : Except PyErr Nat) = .error e from h)

theorem insertTextBarline_zero (sec : TSec) (rest : List TSec) (k : Nat) :
    insertTextBarline (sec :: rest) 0 k =
      sec.take k :: [[['|']]] :: sec.drop k :: rest := rfl

theorem insertVolpianoBarline_zero (sec : VSec) (rest : List VSec) (k : Nat) :
    insertVolpianoBarline (sec :: rest) 0 k =
      sec.take k :: [["3---".toList]] :: sec.drop k :: rest := rfl

theorem pyInsert_cons {α : Type} (a : α) (l : List α) (i : Nat) (x : α) :
    pyInsert (a :: l) (i + 1) x = a :: pyInsert l i x := by
  simp [pyInsert]

theorem insertTextBarline_cons (s0 : TSec) (rest : List TSec) (idx k : Nat) :
    insertTextBarline (s0 :: rest) (idx + 1) k = s0 :: insertTextBarline rest idx k := by
  simp only [insertTextBarline, List.getD_cons_succ, List.set_cons_succ]
  rw [pyInsert_cons, show idx + 1 + 2 = idx + 2 + 1 by omega, pyInsert_cons]

theorem insertVolpianoBarline_cons (s0 : VSec) (rest : List VSec) (idx k : Nat) :
    insertVolpianoBarline (s0 :: rest) (idx + 1) k =
      s0 :: insertVolpianoBarline rest idx k := by
  simp only [insertVolpianoBarline, List.getD_cons_succ, List.set_cons_succ]
  rw [pyInsert_cons, show idx + 1 + 2 = idx + 2 + 1 by omega, pyInsert_cons]

/-- Splitting a section at a word index and recounting: whenever the recount
succeeds, it finds exactly one more text barline (the invariant rules out the
second fragment counting as a barline, and a successful recount rules out an
empty first fragment). -/
theorem countTextBarlines_insert :
    ∀ (st : List TSec) (idx k bt n : Nat), idx < st.length → InvText st →
      countTextBarlines st = .ok bt →
      countTextBarlines (insertTextBarline st idx k) = .ok n →
      n = bt + 1 := by
  intro st
  induction st with
  | nil => intro idx k bt n hidx _ _ _; simp at hidx
  | cons sec rest ih =>
    intro idx k bt n hidx hInv hold hnew
    obtain ⟨b0, m0, hb0, hm0, hbt⟩ := countTextBarlines_cons_ok hold
    match idx with
    | 0 =>
      rw [insertTextBarline_zero] at hnew
      obtain ⟨bA, mA, hbA, hA, hnA⟩ := countTextBarlines_cons_ok hnew
      obtain ⟨bBar, mB, hbBar, hB, hnB⟩ := countTextBarlines_cons_ok hA
      obtain ⟨bB, mR, hbB, hR, hnR⟩ := countTextBarlines_cons_ok hB
      have hbarval : bBar = true := by
        have h2 : (Except.ok true : Except PyErr Bool) = .ok bBar := hbBar
        cases h2
        rfl
      have hk : k ≠ 0 := by
        intro hk0
        subst hk0
        rw [List.take_zero] at hbA
        exact Except.noConfusion
          (show (Except.error PyErr.indexError : Except PyErr Bool) = .ok bA from hbA)
      have hbAb0 : bA = b0 := by
        have he : textIsBarline (sec.take k) = textIsBarline sec :=
          textIsBarline_congr (by
            cases sec with
            | nil => simp
            | cons w ws =>
              cases k with
              | zero => exact absurd rfl hk
              | succ k => simp [List.take_succ_cons])
        rw [hbA, hb0] at he
        exact Except.ok.inj he
      have hbBval : bB = false := by
        obtain ⟨w, syl, c, hw, hsyl, hc, hbe⟩ := textIsBarline_ok hbB
        rw [List.head?_drop] at hw
        have hcp := hInv sec (by simp) k w (by omega) hw syl hsyl c hc
        subst hbe
        simp only [List.mem_singleton] at hcp
        simp [hcp]
      have hmRm0 : mR = m0 := by
        rw [hm0] at hR
        exact (Except.ok.inj hR).symm
      subst hbarval hbBval hbAb0 hmRm0 hnA hnB hnR hbt
      simp only [eq_self_iff_true, Bool.false_eq_true, if_true, if_false]
      omega
    | idx + 1 =>
      rw [insertTextBarline_cons] at hnew
      obtain ⟨b1, m1, hb1, hm1, hn1⟩ := countTextBarlines_cons_ok hnew
      have hb1b0 : b1 = b0 := by
        rw [hb0] at hb1
        exact (Except.ok.inj hb1).symm
      have hrec := ih idx k m0 m1
        (by simp only [List.length_cons] at hidx; omega)
        (fun s hs => hInv s (by simp [hs])) hm0 hm1
      subst hb1b0 hbt hn1
      rw [hrec]
      omega

/-- The volpiano counterpart of `countTextBarlines_insert`. -/
theorem countVolBarlines_insert :
    ∀ (sv : List VSec) (idx k bv n : Nat), idx < sv.length → InvVol sv →
      countVolBarlines sv = .ok bv →
      countVolBarlines (insertVolpianoBarline sv idx k) = .ok n →
      n = bv + 1 := by
  intro sv
  induction sv with
  | nil => intro idx k bv n hidx _ _ _; simp at hidx
  | cons sec rest ih =>
    intro idx k bv n hidx hInv hold hnew
    obtain ⟨b0, m0, hb0, hm0, hbv⟩ := countVolBarlines_cons_ok hold
    match idx with
    | 0 =>
      rw [insertVolpianoBarline_zero] at hnew
      obtain ⟨bA, mA, hbA, hA, hnA⟩ := countVolBarlines_cons_ok hnew
      obtain ⟨bBar, mB, hbBar, hB, hnB⟩ := countVolBarlines_cons_ok hA
      obtain ⟨bB, mR, hbB, hR, hnR⟩ := countVolBarlines_cons_ok hB
      have hbarval : bBar = true := by
        have h2 : (Except.ok true : Except PyErr Bool) = .ok bBar := hbBar
        cases h2
        rfl
      have hk : k ≠ 0 := by
        intro hk0
        subst hk0
        rw [List.take_zero] at hbA
        exact Except.noConfusion
          (show (Except.error PyErr.indexError : Except PyErr Bool) = .ok bA from hbA)
      have hbAb0 : bA = b0 := by
        have he : volIsBarline (sec.take k) = volIsBarline sec :=
          volIsBarline_congr (by
            cases sec with
            | nil => simp
            | cons w ws =>
              cases k with
              | zero => exact absurd rfl hk
              | succ k => simp [List.take_succ_cons])
        rw [hbA, hb0] at he
        exact Except.ok.inj he
      have hbBval : bB = false := by
        obtain ⟨w, syl, c, hw, hsyl, hc, hbe⟩ := volIsBarline_ok hbB
        rw [List.head?_drop] at hw
        have hcp := hInv sec (by simp) k w (by omega) hw syl hsyl c hc
        subst hbe
        simp only [List.mem_cons, List.mem_singleton] at hcp
        push_neg at hcp
        simp [hcp.1, hcp.2]
      have hmRm0 : mR = m0 := by
        rw [hm0] at hR
        exact (Except.ok.inj hR).symm
      subst hbarval hbBval hbAb0 hmRm0 hnA hnB hnR hbv
      simp only [eq_self_iff_true, Bool.false_eq_true, if_true, if_false]
      omega
    | idx + 1 =>
      rw [insertVolpianoBarline_cons] at hnew
      obtain ⟨b1, m1, hb1, hm1, hn1⟩ := countVolBarlines_cons_ok hnew
      have hb1b0 : b1 = b0 := by
        rw [hb0] at hb1
        exact (Except.ok.inj hb1).symm
      have hrec := ih idx k m0 m1
        (by simp only [List.length_cons] at hidx; omega)
        (fun s hs => hInv s (by simp [hs])) hm0 hm1
      subst hb1b0 hbv hn1
      rw [hrec]
      omega

theorem noLateBarline_take {bad : List Char} {sec : List Word} (k : Nat)
    (h : noLateBarline bad sec) : noLateBarline bad (sec.take k) := by
  intro j w hj hw s hs c hc
  rw [List.getElem?_take] at hw
  split at hw
  · exact h j w hj hw s hs c hc
  · cases hw

theorem noLateBarline_drop {bad : List Char} {sec : List Word} (k : Nat)
    (h : noLateBarline bad sec) : noLateBarline bad (sec.drop k) := by
  intro j w hj hw s hs c hc
  rw [List.getElem?_drop] at hw
  exact h (k + j) w (by omega) hw s hs c hc

theorem noLateBarline_single (bad : List Char) (w : Word) :
    noLateBarline bad [w] := by
  intro j v hj hv s hs c hc
  cases j with
  | zero => omega
  | succ j => simp at hv

theorem noLateBarline_nil (bad : List Char) : noLateBarline bad [] := by
  intro j v hj hv s hs c hc
  simp at hv

theorem InvText_insert :
    ∀ (st : List TSec) (idx k : Nat), InvText st →
      InvText (insertTextBarline st idx k) := by
  intro st
  induction st with
  | nil =>
    intro idx k _
    intro sec hsec
    have hnil : insertTextBarline [] idx k = [[[['|']]], []] := by
      simp [insertTextBarline, pyInsert]
    rw [hnil] at hsec
    rcases List.mem_cons.mp hsec with rfl | hsec
    · exact noLateBarline_single _ _
    · rcases List.mem_cons.mp hsec with rfl | hsec
      · exact noLateBarline_nil _
      · simp at hsec
  | cons s0 rest ih =>
    intro idx k h
    match idx with
    | 0 =>
      rw [insertTextBarline_zero]
      intro sec hsec
      rcases List.mem_cons.mp hsec with rfl | hsec
      · exact noLateBarline_take k (h s0 (by simp))
      · rcases List.mem_cons.mp hsec with rfl | hsec
        · exact noLateBarline_single _ _
        · rcases List.mem_cons.mp hsec with rfl | hsec
          · exact noLateBarline_drop k (h s0 (by simp))
          · exact h sec (by simp [hsec])
    | idx + 1 =>
      rw [insertTextBarline_cons]
      intro sec hsec
      rcases List.mem_cons.mp hsec with rfl | hsec
      · exact h sec (by simp)
      · exact ih idx k (fun s hs => h s (by simp [hs])) sec hsec

theorem InvVol_insert :
    ∀ (sv : List VSec) (idx k : Nat), InvVol sv →
      InvVol (insertVolpianoBarline sv idx k) := by
  intro sv
  induction sv with
  | nil =>
    intro idx k _
    intro sec hsec
    have hnil : insertVolpianoBarline [] idx k = [[["3---".toList]], []] := by
      simp [insertVolpianoBarline, pyInsert]
    rw [hnil] at hsec
    rcases List.mem_cons.mp hsec with rfl | hsec
    · exact noLateBarline_single _ _
    · rcases List.mem_cons.mp hsec with rfl | hsec
      · exact noLateBarline_nil _
      · simp at hsec
  | cons s0 rest ih =>
    intro idx k h
    match idx with
    | 0 =>
      rw [insertVolpianoBarline_zero]
      intro sec hsec
      rcases List.mem_cons.mp hsec with rfl | hsec
      · exact noLateBarline_take k (h s0 (by simp))
      · rcases List.mem_cons.mp hsec with rfl | hsec
        · exact noLateBarline_single _ _
        · rcases List.mem_cons.mp hsec with rfl | hsec
          · exact noLateBarline_drop k (h s0 (by simp))
          · exact h sec (by simp [hsec])
    | idx + 1 =>
      rw [insertVolpianoBarline_cons]
      intro sec hsec
      rcases List.mem_cons.mp hsec with rfl | hsec
      · exact h sec (by simp)
      · exact ih idx k (fun s hs => h s (by simp [hs])) sec hsec

theorem maxOfList_mem : ∀ {l : List Nat}, l ≠ [] → maxOfList l ∈ l := by
  intro l
  induction l with
  | nil => intro h; exact absurd rfl h
  | cons x xs ih =>
    intro _
    by_cases hx : maxOfList xs ≤ x
    · simp [maxOfList, Nat.max_eq_left hx]
    · match xs with
      | [] => exact absurd (by simp [maxOfList]) hx
      | y :: ys =>
        have hmem := ih (by simp)
        have hstep : maxOfList (x :: y :: ys) = maxOfList (y :: ys) := by
          show max x (maxOfList (y :: ys)) = maxOfList (y :: ys)
          exact Nat.max_eq_right (Nat.le_of_not_le hx)
        rw [hstep]
        exact List.mem_cons_of_mem _ hmem

theorem firstIdxOf_lt_length {x : Nat} :
    ∀ {l : List Nat}, x ∈ l → firstIdxOf x l < l.length := by
  intro l
  induction l with
  | nil => intro h; simp at h
  | cons y ys ih =>
    intro h
    simp only [firstIdxOf]
    split
    · simp
    · rename_i hne
      rcases List.mem_cons.mp h with rfl | h
      · exact absurd rfl hne
      · have := ih h
        simp only [List.length_cons]
        omega

theorem mapM_error_spec {α β : Type} {f : α → Except PyErr β} :
    ∀ {l : List α} {e : PyErr}, l.mapM f = .error e → ∃ x ∈ l, f x = .error e := by
  intro l
  induction l with
  | nil =>
    intro e h
    rw [List.mapM_nil] at h
    exact Except.noConfusion (show (Except.ok ([] : List β) : Except PyErr (List β)) = .error e from h)
  | cons a as ih =>
    intro e h
    rw [List.mapM_cons] at h
    rcases except_bind_error h with hfa | ⟨b, hfa, h⟩
    · exact ⟨a, by simp, hfa⟩
    · rcases except_bind_error h with hm | ⟨bs, hm, h⟩
      · obtain ⟨x, hx, hfx⟩ := ih hm
        exact ⟨x, by simp [hx], hfx⟩
      · exact Except.noConfusion
          (show (Except.ok (b :: bs) : Except PyErr (List β)) = .error e from h)

theorem padSections_error {st : List TSec} {sv : List VSec} {e : PyErr}
    (h : padSections st sv = .error e) : e = .indexError := by
  unfold padSections at h
  split at h
  · rcases except_bind_error h with hm | ⟨bs, hm, h⟩
    · obtain ⟨x, _, hfx⟩ := mapM_error_spec hm
      exact textIsBarline_error hfx
    · exact Except.noConfusion
        (show (Except.ok
          (st, sv ++ bs.map fun b => if b then [["3---".toList]] else [[[]]]) :
          Except PyErr (List TSec × List VSec)) = .error e from h)
  · rcases except_bind_error h with hm | ⟨bs, hm, h⟩
    · obtain ⟨x, _, hfx⟩ := mapM_error_spec hm
      exact volIsBarline_error hfx
    · exact Except.noConfusion
        (show (Except.ok
          (st ++ bs.map fun b => if b then [[['|']]] else [[[]]], sv) :
          Except PyErr (List TSec × List VSec)) = .error e from h)

theorem padSections_ne_rnc (st : List TSec) (sv : List VSec) :
    padSections st sv ≠ .error .repairNotConverged := by
  intro h
  exact absurd (padSections_error h) (by decide)

theorem inferBarlinesLoop_succ_eq (fuel : Nat) (st : List TSec) (sv : List VSec)
    (bt bv : Nat) (hne : bt ≠ bv) :
    inferBarlinesLoop (fuel + 1) st sv bt bv =
      inferBarlinesStep (inferBarlinesLoop fuel) st sv bt bv := by
  rw [inferBarlinesLoop]
  rw [if_neg hne]

/-- Each executed loop body of `_infer_barlines` either stops (padding,
`ValueError` from `max([])`, or `IndexError` from a recount) or strictly
shrinks the barline-count distance, so fuel `|bt - bv|` is never
exhausted. -/
theorem inferBarlinesLoop_ne_rnc :
    ∀ (fuel : Nat) (st : List TSec) (sv : List VSec) (bt bv : Nat),
      InvText st → InvVol sv →
      countTextBarlines st = .ok bt → countVolBarlines sv = .ok bv →
      Nat.dist bt bv ≤ fuel →
      inferBarlinesLoop fuel st sv bt bv ≠ .error .repairNotConverged := by
  intro fuel
  induction fuel with
  | zero =>
    intro st sv bt bv _ _ _ _ hd
    have hbe : bt = bv := by
      unfold Nat.dist at hd
      omega
    unfold inferBarlinesLoop
    rw [if_pos hbe]
    exact padSections_ne_rnc st sv
  | succ fuel ih =>
    intro st sv bt bv hIT hIV hct hcv hd
    by_cases hbe : bt = bv
    · unfold inferBarlinesLoop
      rw [if_pos hbe]
      exact padSections_ne_rnc st sv
    · rw [inferBarlinesLoop_succ_eq fuel st sv bt bv hbe]
      simp only [inferBarlinesStep]
      set diffs := (st.zip sv).map fun p => Nat.dist p.1.length p.2.length with hdf
      by_cases hdiffs : diffs = []
      · rw [if_pos hdiffs]
        simp
      · rw [if_neg hdiffs]
        by_cases hm0 : maxOfList diffs = 0
        · rw [if_pos hm0]
          exact padSections_ne_rnc st sv
        · rw [if_neg hm0]
          set idx := firstIdxOf (maxOfList diffs) diffs with hif
          have hmem := maxOfList_mem hdiffs
          have hlt : idx < diffs.length := firstIdxOf_lt_length hmem
          have hdl : diffs.length = min st.length sv.length := by
            rw [hdf, List.length_map, List.length_zip]
          by_cases hgt : bt > bv
          · rw [if_pos hgt, hct]
            cases hcv2 : countVolBarlines
                (insertVolpianoBarline sv idx (st.getD idx []).length) with
            | error e =>
              intro hcontra
              have he : e = PyErr.repairNotConverged := Except.error.inj hcontra
              exact absurd (countVolBarlines_error (he ▸ hcv2)) (by decide)
            | ok bv2 =>
              have hidx2 : idx < sv.length := by omega
              have hbv2 : bv2 = bv + 1 :=
                countVolBarlines_insert sv idx _ bv bv2 hidx2 hIV hcv hcv2
              subst hbv2
              exact ih st _ bt (bv + 1) hIT (InvVol_insert sv idx _ hIV) hct hcv2
                (by unfold Nat.dist at hd ⊢; omega)
          · rw [if_neg hgt, hcv]
            cases hct2 : countTextBarlines
                (insertTextBarline st idx (sv.getD idx []).length) with
            | error e =>
              intro hcontra
              have he : e = PyErr.repairNotConverged := Except.error.inj hcontra
              exact absurd (countTextBarlines_error (he ▸ hct2)) (by decide)
            | ok bt2 =>
              have hidx2 : idx < st.length := by omega
              have hbt2 : bt2 = bt + 1 :=
                countTextBarlines_insert st idx _ bt bt2 hidx2 hIT hct hct2
              subst hbt2
              exact ih _ sv (bt + 1) bv (InvText_insert st idx _ hIT) hIV hct2 hcv
                (by unfold Nat.dist at hd ⊢; omega)

/-- `_infer_barlines` never exhausts its fuel when both invariants hold. -/
theorem inferBarlines_ne_rnc (st : List TSec) (sv : List VSec)
    (hIT : InvText st) (hIV : InvVol sv) :
    inferBarlines st sv ≠ .error .repairNotConverged := by
  unfold inferBarlines
  intro h
  rcases except_bind_error h with hct | ⟨bt, hct, h⟩
  · exact absurd (countTextBarlines_error hct) (by decide)
  · rcases except_bind_error h with hcv | ⟨bv, hcv, h⟩
    · exact absurd (countVolBarlines_error hcv) (by decide)
    · exact inferBarlinesLoop_ne_rnc (Nat.dist bt bv) st sv bt bv hIT hIV hct hcv
        (Nat.le_refl _) h

theorem findIdx?_take_false {p : Char → Bool} :
    ∀ {l : List Char} {i : Nat}, l.findIdx? p = some i → ∀ x ∈ l.take i, p x = false := by
  intro l
  induction l with
  | nil => intro i h x hx; simp [List.findIdx?] at h
  | cons c cs ih =>
    intro i h x hx
    rw [List.findIdx?_cons] at h
    split at h
    · cases h
      simp at hx
    · rename_i hp
      rw [List.findIdx?_succ] at h
      simp only [Option.map_eq_some'] at h
      obtain ⟨j, hj, rfl⟩ := h
      rw [List.take_succ_cons] at hx
      rcases List.mem_cons.mp hx with rfl | hx
      · simpa using hp
      · exact ih hj x hx

theorem textSectionMatchAt_none_pipe {c : Char} {cs : List Char}
    (h : textSectionMatchAt (c :: cs) = none) : c ≠ '|' := by
  intro hc
  subst hc
  simp [textSectionMatchAt] at h

/-- Any match of the text sectioner that contains a `|` is either the
one-character barline match or starts with `{` or `[` (the `~` alternative
stops before the first `|`). -/
theorem textSectionMatchAt_pipe {s m rest : List Char}
    (h : textSectionMatchAt s = some (m, rest)) (hp : '|' ∈ m) :
    m = ['|'] ∨ m.headD ' ' = '{' ∨ m.headD ' ' = '[' := by
  simp only [textSectionMatchAt] at h
  split at h
  · simp only [Option.some.injEq, Prod.mk.injEq] at h
    exact Or.inl h.1.symm
  · rename_i rest1
    split at h
    · split at h
      · simp only [Option.some.injEq, Prod.mk.injEq] at h
        obtain ⟨h1, _⟩ := h
        subst h1
        simp
      · cases h
    · cases h
  · rename_i rest1
    exfalso
    cases hf : rest1.findIdx? (· = '|') with
    | some k =>
      simp only [hf] at h
      split at h
      · simp only [Option.some.injEq, Prod.mk.injEq] at h
        obtain ⟨h1, _⟩ := h
        subst h1
        rcases List.mem_cons.mp hp with htil | hin
        · exact absurd htil.symm (by decide)
        · have := findIdx?_take_false hf '|' hin
          simp at this
      · cases h
    | none =>
      simp only [hf] at h
      split at h <;> split at h <;>
        first
          | (simp only [Option.some.injEq, Prod.mk.injEq] at h
             obtain ⟨h1, _⟩ := h
             subst h1
             rcases List.mem_cons.mp hp with htil | hin
             · exact absurd htil.symm (by decide)
             · have h2 := List.findIdx?_eq_none_iff.mp hf '|' (List.mem_of_mem_take hin)
               simp at h2)
          | cases h
  · rename_i rest1
    split at h
    · simp only [Option.some.injEq, Prod.mk.injEq] at h
      obtain ⟨h1, _⟩ := h
      subst h1
      simp
    · cases h
  · cases h

/-- Every piece produced by the text sectioner split that contains a `|` is
the barline match itself or a markup match starting with `{` or `[`; in
particular no plain chunk contains a `|`. -/
theorem textSplitAux_pipe :
    ∀ (n : Nat) (acc s : List Char), s.length ≤ n → '|' ∉ acc →
      ∀ part ∈ textSplitAux acc s, '|' ∈ part →
        part = ['|'] ∨ part.headD ' ' = '{' ∨ part.headD ' ' = '[' := by
  intro n
  induction n with
  | zero =>
    intro acc s hn hacc part hpart hp
    have hs : s = [] := List.length_eq_zero.mp (Nat.le_zero.mp hn)
    subst hs
    rw [textSplitAux_unfold] at hpart
    simp only [List.mem_singleton] at hpart
    subst hpart
    exact absurd hp hacc
  | succ n ih =>
    intro acc s hn hacc part hpart hp
    match s with
    | [] =>
      rw [textSplitAux_unfold] at hpart
      simp only [List.mem_singleton] at hpart
      subst hpart
      exact absurd hp hacc
    | c :: cs =>
      rw [textSplitAux_unfold] at hpart
      simp only [List.length_cons] at hn
      cases hm : textSectionMatchAt (c :: cs) with
      | some pr =>
        obtain ⟨mm, rest⟩ := pr
        simp only [hm] at hpart
        have hl := textSectionMatchAt_rest_length hm
        simp only [List.length_cons] at hl
        rcases List.mem_cons.mp hpart with rfl | hpart
        · exact absurd hp hacc
        · rcases List.mem_cons.mp hpart with rfl | hpart
          · exact textSectionMatchAt_pipe hm hp
          · exact ih [] rest (by omega) (by simp) part hpart hp
      | none =>
        simp only [hm] at hpart
        have hacc2 : '|' ∉ acc ++ [c] := by
          intro hmem
          rcases List.mem_append.mp hmem with h1 | h1
          · exact hacc h1
          · simp only [List.mem_singleton] at h1
            exact textSectionMatchAt_none_pipe hm h1.symm
        exact ih (acc ++ [c]) cs (by omega) hacc2 part hpart hp

theorem pyStrip_subset {l : List Char} : ∀ c ∈ pyStrip l, c ∈ l := by
  intro c hc
  unfold pyStrip at hc
  rw [List.mem_reverse] at hc
  have h1 : c ∈ (l.dropWhile isPyWhitespace).reverse :=
    (List.dropWhile_suffix _).subset hc
  rw [List.mem_reverse] at h1
  exact (List.dropWhile_suffix _).subset h1

/-- Stripping preserves a non-whitespace head character (and so cannot
empty the string). -/
theorem pyStrip_headD_of_not_ws {l : List Char} {c : Char}
    (hh : l.headD ' ' = c) (hws : isPyWhitespace c = false) :
    pyStrip l ≠ [] ∧ (pyStrip l).headD ' ' = c := by
  match l with
  | [] =>
    exfalso
    simp only [List.headD_nil] at hh
    subst hh
    simp [isPyWhitespace] at hws
  | a :: as =>
    simp only [List.headD_cons] at hh
    subst hh
    unfold pyStrip
    rw [List.dropWhile_cons_of_neg (by simp [hws])]
    have hsuf : List.dropWhile isPyWhitespace ((a :: as).reverse) <:+ (a :: as).reverse :=
      List.dropWhile_suffix _
    have hpfx : (((a :: as).reverse.dropWhile isPyWhitespace).reverse) <+: (a :: as) :=
      List.reverse_suffix.mp (by rw [List.reverse_reverse]; exact hsuf)
    have hrne : ((a :: as).reverse.dropWhile isPyWhitespace).reverse ≠ [] := by
      intro h0
      have he : (a :: as).reverse.dropWhile isPyWhitespace = [] := by
        rw [← List.reverse_reverse ((a :: as).reverse.dropWhile isPyWhitespace), h0]
        rfl
      rw [List.dropWhile_eq_nil_iff] at he
      have := he a (by simp)
      simp [hws] at this
    refine ⟨hrne, ?_⟩
    obtain ⟨t, ht⟩ := hpfx
    cases hr : ((a :: as).reverse.dropWhile isPyWhitespace).reverse with
    | nil => exact absurd hr hrne
    | cons b bs =>
      rw [hr] at ht
      have hb : b = a := by
        have h2 := congrArg (fun x => x.headD ' ') ht
        simpa using h2
      rw [hb]
      simp

theorem splitOnChar_chars {sep : Char} :
    ∀ {s : List Char}, ∀ piece ∈ splitOnChar sep s, ∀ c ∈ piece, c ∈ s := by
  intro s
  induction s with
  | nil =>
    intro piece hp c hc
    simp only [splitOnChar, List.mem_singleton] at hp
    subst hp
    simp at hc
  | cons a as ih =>
    intro piece hp c hc
    simp only [splitOnChar] at hp
    split at hp
    · rcases List.mem_cons.mp hp with rfl | hp
      · simp at hc
      · exact List.mem_cons_of_mem _ (ih piece hp c hc)
    · split at hp
      · simp only [List.mem_singleton] at hp
        subst hp
        simp only [List.mem_singleton] at hc
        subst hc
        exact List.mem_cons_self _ _
      · rename_i w ws hws
        rcases List.mem_cons.mp hp with rfl | hp
        · rcases List.mem_cons.mp hc with rfl | hc
          · exact List.mem_cons_self _ _
          · exact List.mem_cons_of_mem _
              (ih w (by rw [hws]; exact List.mem_cons_self _ _) c hc)
        · exact List.mem_cons_of_mem _
            (ih piece (by rw [hws]; exact List.mem_cons_of_mem _ hp) c hc)

theorem splitWordBySylBounds_chars {w : List Char} {bs : List Nat} :
    ∀ piece ∈ splitWordBySylBounds w bs, ∀ c ∈ piece, c ∈ w ∨ c = '-' := by
  intro piece hp c hc
  unfold splitWordBySylBounds at hp
  split at hp
  · simp only [List.mem_singleton] at hp
    subst hp
    exact Or.inl hc
  · rcases List.mem_cons.mp hp with rfl | hp
    · rcases List.mem_append.mp hc with h1 | h1
      · exact Or.inl (List.mem_of_mem_take h1)
      · simp only [List.mem_singleton] at h1
        exact Or.inr h1
    · rcases List.mem_append.mp hp with h1 | h1
      · obtain ⟨bb, hbb, rfl⟩ := List.mem_map.mp h1
        rcases List.mem_append.mp hc with h2 | h2
        · unfold pyExtract at h2
          exact Or.inl (List.mem_of_mem_drop (List.mem_of_mem_take h2))
        · simp only [List.mem_singleton] at h2
          exact Or.inr h2
      · simp only [List.mem_singleton] at h1
        subst h1
        exact Or.inl (List.mem_of_mem_drop hc)

theorem prepareString_spec {w p : List Char} {sh eh : Bool}
    (heq : prepareStringForSyllabification w = (p, sh, eh)) : ∀ c ∈ p, c ∈ w := by
  unfold prepareStringForSyllabification at heq
  split at heq
  rename_i x w1 sh1 heq1
  have hw1 : ∀ c ∈ w1, c ∈ w := by
    intro c hc
    split at heq1
    · cases heq1
      exact List.mem_cons_of_mem _ hc
    · cases heq1
      exact hc
  split at heq
  rename_i y w2 eh2 heq2
  cases heq
  intro c hc
  split at heq2
  · cases heq2
    exact hw1 c (List.dropLast_subset _ hc)
  · cases heq2
    exact hw1 c hc

theorem presylSplit_chars {prepared : List Char} :
    ∀ piece ∈ presylSplit prepared, ∀ c ∈ piece, c ∈ prepared ∨ c = '-' := by
  intro piece hp c hc
  unfold presylSplit at hp
  rcases List.mem_append.mp hp with h1 | h1
  · obtain ⟨q, hq, rfl⟩ := List.mem_map.mp h1
    rcases List.mem_append.mp hc with h2 | h2
    · exact Or.inl (splitOnChar_chars q (List.dropLast_subset _ hq) c h2)
    · simp only [List.mem_singleton] at h2
      exact Or.inr h2
  · simp only [List.mem_singleton] at h1
    subst h1
    rw [List.getLastD_eq_getLast?] at hc
    cases hl : (splitOnChar '-' prepared).getLast? with
    | none =>
      rw [hl] at hc
      simp at hc
    | some q =>
      rw [hl] at hc
      simp only [Option.getD_some] at hc
      exact Or.inl (splitOnChar_chars q (List.mem_of_mem_getLast? hl) c hc)

theorem append_end_chars {W : Word} {P : Char → Prop}
    (hW : ∀ piece ∈ W, ∀ c ∈ piece, P c ∨ c = '-') :
    ∀ piece ∈ W.dropLast ++ [W.getLastD [] ++ ['-']], ∀ c ∈ piece, P c ∨ c = '-' := by
  intro piece hp c hc
  rcases List.mem_append.mp hp with h1 | h1
  · exact hW piece (List.dropLast_subset _ h1) c hc
  · simp only [List.mem_singleton] at h1
    subst h1
    rcases List.mem_append.mp hc with h2 | h2
    · rw [List.getLastD_eq_getLast?] at h2
      cases hl : W.getLast? with
      | none =>
        rw [hl] at h2
        simp at h2
      | some q =>
        rw [hl] at h2
        simp only [Option.getD_some] at h2
        exact hW q (List.mem_of_mem_getLast? hl) c h2
    · simp only [List.mem_singleton] at h2
      exact Or.inr h2

theorem reattachHyphens_chars {syls : Word} {s e : Bool} :
    ∀ piece ∈ reattachHyphens syls s e, ∀ c ∈ piece,
      (∃ q ∈ syls, c ∈ q) ∨ c = '-' := by
  have hstart : ∀ piece ∈ (if s then
      (match syls with | [] => [] | s0 :: rest => ('-' :: s0) :: rest)
      else syls), ∀ c ∈ piece, (∃ q ∈ syls, c ∈ q) ∨ c = '-' := by
    intro piece hp c hc
    split at hp
    · match syls, hp with
      | s0 :: rest, hp =>
        rcases List.mem_cons.mp hp with rfl | hp
        · rcases List.mem_cons.mp hc with rfl | hc
          · exact Or.inr rfl
          · exact Or.inl ⟨s0, List.mem_cons_self _ _, hc⟩
        · exact Or.inl ⟨piece, List.mem_cons_of_mem _ hp, hc⟩
    · exact Or.inl ⟨piece, hp, hc⟩
  intro piece hp c hc
  simp only [reattachHyphens] at hp
  split at hp
  · exact append_end_chars hstart piece hp c hc
  · exact hstart piece hp c hc

/-- Every character of every syllable that `syllabify_text` produces for a
word comes from that word or is a boundary hyphen. -/
theorem syllabifyTextWord_chars {w : List Char} {p : Bool} {word : Word}
    (h : syllabifyTextWord w p = .ok word) :
    ∀ syl ∈ word, ∀ c ∈ syl, c ∈ w ∨ c = '-' := by
  unfold syllabifyTextWord at h
  split at h
  · cases h
    intro syl hs c hc
    simp only [List.mem_singleton] at hs
    subst hs
    exact Or.inl hc
  · split at h
    · cases h
      intro syl hs c hc
      exact splitWordBySylBounds_chars syl hs c hc
    · split at h
      rename_i prepared startHy endHy heq
      split at h
      · cases h
      · rename_i syllabified hsyl
        cases h
        have hsylchars : ∀ sylp ∈ syllabified, ∀ c ∈ sylp,
            c ∈ prepared ∨ c = '-' := by
          split at hsyl
          · cases hsyl
            exact presylSplit_chars
          · cases hb : syllabifyWord prepared with
            | error e2 =>
              rw [hb] at hsyl
              exact Except.noConfusion
                (show (Except.error e2 : Except PyErr Word) = .ok syllabified from hsyl)
            | ok bs =>
              rw [hb] at hsyl
              have h2 : (Except.ok (splitWordBySylBounds prepared bs) :
                  Except PyErr Word) = .ok syllabified := hsyl
              cases h2
              exact splitWordBySylBounds_chars
        intro syl hs c hc
        rcases reattachHyphens_chars syl hs c hc with ⟨q, hq, hcq⟩ | hdash
        · rcases hsylchars q hq c hcq with h1 | h1
          · exact Or.inl (prepareString_spec heq c h1)
          · exact Or.inr h1
        · exact Or.inr hdash

/-- A non-special text section built from a `|`-free string satisfies the
barline-splitting invariant. -/
theorem syllabifyTextSection_noLate {sec : List Char} {p : Bool} {tsec : TSec}
    (h : syllabifyTextSection sec p = .ok tsec) (hpipe : '|' ∉ sec) :
    noLateBarline ['|'] tsec := by
  unfold syllabifyTextSection at h
  split at h
  · cases h
    exact noLateBarline_single _ _
  · intro j ww hj hw s hs c hc
    simp only [List.mem_singleton]
    intro hceq
    have hwmem : ww ∈ tsec := List.getElem?_mem hw
    obtain ⟨x, hx, hfx⟩ := (mapM_ok_spec h).2 ww hwmem
    have hsmem : s ∈ ww := List.mem_of_mem_head? hs
    have hcmem : c ∈ s := List.mem_of_mem_head? hc
    rcases syllabifyTextWord_chars hfx s hsmem c hcmem with h1 | h1
    · have hcsec : c ∈ sec := splitOnChar_chars x (List.mem_of_mem_filter hx) c h1
      rw [hceq] at hcsec
      exact hpipe hcsec
    · rw [hceq] at h1
      exact absurd h1 (by decide)

/-- Every section list returned by `syllabify_text` satisfies the text
invariant: only a section's first word can make a section count as a
barline, so the repair's splits change the barline count by exactly one. -/
theorem syllabifyText_inv {text : List Char} {cl p : Bool} {st : List TSec}
    {adj : Bool} (h : syllabifyText text cl p = .ok (st, adj)) : InvText st := by
  unfold syllabifyText at h
  split at h
  · cases h
  · split at h
    · cases h
    · rename_i out hout
      have h2 : (Except.ok
          (out, (spaceHashSigns (if cl then cleanTextStr text else text)).2) :
          Except PyErr (List TSec × Bool)) = .ok (st, adj) := h
      cases h2
      intro sec hsec
      obtain ⟨x, hx, hfx⟩ := (mapM_ok_spec hout).2 sec hsec
      unfold splitTextSections at hx
      have hmap := List.mem_of_mem_filter hx
      obtain ⟨part, hpart, rfl⟩ := List.mem_map.mp hmap
      by_cases hin : '|' ∈ pyStrip part
      · have hpp : '|' ∈ part := pyStrip_subset _ hin
        have hdisj := textSplitAux_pipe _ [] _ (Nat.le_refl _) (by simp) part hpart hpp
        have hsp : pyStrip part = ['|'] ∨
            (pyStrip part).headD ' ' ∈ (['{', '~', '['] : List Char) := by
          rcases hdisj with h1 | h1 | h1
          · left
            rw [h1]
            rfl
          · right
            rw [(pyStrip_headD_of_not_ws h1 (by decide)).2]
            simp
          · right
            rw [(pyStrip_headD_of_not_ws h1 (by decide)).2]
            simp
        unfold syllabifyTextSection at hfx
        split at hfx
        · cases hfx
          exact noLateBarline_single _ _
        · rename_i hns
          exfalso
          apply hns
          simp only [Bool.or_eq_true, decide_eq_true_eq]
          exact hsp
      · exact syllabifyTextSection_noLate hfx hin

theorem volSectionMatchAt_none34 {c : Char} {cs : List Char}
    (h : volSectionMatchAt (c :: cs) = none) : c ≠ '3' ∧ c ≠ '4' := by
  constructor <;> intro hc <;> subst hc <;> simp [volSectionMatchAt] at h

theorem volSectionMatchAt_head {s m rest : List Char}
    (h : volSectionMatchAt s = some (m, rest)) :
    m.headD ' ' ∈ (['3', '4', '6'] : List Char) := by
  match s with
  | [] => simp [volSectionMatchAt] at h
  | c :: cs =>
    simp only [volSectionMatchAt] at h
    split at h
    · rename_i hc
      simp only [Option.some.injEq, Prod.mk.injEq] at h
      obtain ⟨h1, _⟩ := h
      subst h1
      rcases hc with rfl | rfl <;> simp
    · split at h
      · rename_i hc6
        split at h
        · simp only [Option.some.injEq, Prod.mk.injEq] at h
          obtain ⟨h1, _⟩ := h
          subst h1
          subst hc6
          simp
        · cases h
      · cases h

/-- Every piece of the volpiano sectioner split either starts with `3`, `4`
or `6` (the matches) or contains no `3`/`4` at all (the chunks). -/
theorem volSplitAux_no34 :
    ∀ (n : Nat) (acc s : List Char), s.length ≤ n →
      (∀ c ∈ acc, c ≠ '3' ∧ c ≠ '4') →
      ∀ part ∈ volSplitAux acc s,
        part.headD ' ' ∈ (['3', '4', '6'] : List Char) ∨
          ∀ c ∈ part, c ≠ '3' ∧ c ≠ '4' := by
  intro n
  induction n with
  | zero =>
    intro acc s hn hacc part hpart
    have hs : s = [] := List.length_eq_zero.mp (Nat.le_zero.mp hn)
    subst hs
    rw [volSplitAux_unfold] at hpart
    simp only [List.mem_singleton] at hpart
    subst hpart
    exact Or.inr hacc
  | succ n ih =>
    intro acc s hn hacc part hpart
    match s with
    | [] =>
      rw [volSplitAux_unfold] at hpart
      simp only [List.mem_singleton] at hpart
      subst hpart
      exact Or.inr hacc
    | c :: cs =>
      rw [volSplitAux_unfold] at hpart
      simp only [List.length_cons] at hn
      cases hm : volSectionMatchAt (c :: cs) with
      | some pr =>
        obtain ⟨mm, rest⟩ := pr
        simp only [hm] at hpart
        have hl := volSectionMatchAt_rest_length hm
        simp only [List.length_cons] at hl
        rcases List.mem_cons.mp hpart with rfl | hpart
        · exact Or.inr hacc
        · rcases List.mem_cons.mp hpart with rfl | hpart
          · exact Or.inl (volSectionMatchAt_head hm)
          · exact ih [] rest (by omega) (by simp) part hpart
      | none =>
        simp only [hm] at hpart
        refine ih (acc ++ [c]) cs (by omega) ?_ part hpart
        intro x hx
        rcases List.mem_append.mp hx with h1 | h1
        · exact hacc x h1
        · simp only [List.mem_singleton] at h1
          subst h1
          exact volSectionMatchAt_none34 hm

theorem findWords_chars :
    ∀ (n : Nat) (s : List Char), s.length ≤ n → ∀ w ∈ findWords s, ∀ c ∈ w, c ∈ s := by
  intro n
  induction n with
  | zero =>
    intro s h w hw c hc
    have : s = [] := List.length_eq_zero.mp (Nat.le_zero.mp h)
    subst this
    simp [findWords, findWordsGo] at hw
  | succ n ih =>
    intro s h w hw c hc
    match s with
    | [] => simp [findWords, findWordsGo] at hw
    | a :: cs =>
      rw [findWords_unfold] at hw
      simp only [List.length_cons] at h
      cases hm : tryWordMatch (a :: cs) with
      | some pr =>
        obtain ⟨ww, rest⟩ := pr
        simp only [hm] at hw
        obtain ⟨heq, hne⟩ := tryWordMatch_parts hm
        have hl := tryWordMatch_rest_length hm
        simp only [List.length_cons] at hl
        rcases List.mem_cons.mp hw with rfl | hw
        · rw [← heq]
          exact List.mem_append_left _ hc
        · rw [← heq]
          exact List.mem_append_right _ (ih rest (by omega) w hw c hc)
      | none =>
        simp only [hm] at hw
        exact List.mem_cons_of_mem _ (ih cs (by omega) w hw c hc)

theorem findSyls_chars :
    ∀ (n : Nat) (s : List Char), s.length ≤ n → ∀ w ∈ findSyls s, ∀ c ∈ w, c ∈ s := by
  intro n
  induction n with
  | zero =>
    intro s h w hw c hc
    have : s = [] := List.length_eq_zero.mp (Nat.le_zero.mp h)
    subst this
    simp [findSyls, findSylsGo] at hw
  | succ n ih =>
    intro s h w hw c hc
    match s with
    | [] => simp [findSyls, findSylsGo] at hw
    | a :: cs =>
      rw [findSyls_unfold] at hw
      simp only [List.length_cons] at h
      cases hm : trySylMatch (a :: cs) with
      | some pr =>
        obtain ⟨ww, rest⟩ := pr
        simp only [hm] at hw
        obtain ⟨heq, hne⟩ := trySylMatch_parts hm
        have hl := trySylMatch_rest_length hm
        simp only [List.length_cons] at hl
        rcases List.mem_cons.mp hw with rfl | hw
        · rw [← heq]
          exact List.mem_append_left _ hc
        · rw [← heq]
          exact List.mem_append_right _ (ih rest (by omega) w hw c hc)
      | none =>
        simp only [hm] at hw
        exact List.mem_cons_of_mem _ (ih cs (by omega) w hw c hc)

/-- A volpiano section whose string either is a match (head `3`/`4`/`6`) or
is free of `3`/`4` satisfies the volpiano barline-splitting invariant. -/
theorem syllabifyVolpianoSection_noLate (i : Nat) (sec : List Char)
    (hd : sec.headD ' ' ∈ (['3', '4', '6'] : List Char) ∨
      ∀ c ∈ sec, c ≠ '3' ∧ c ≠ '4') :
    noLateBarline ['3', '4'] (syllabifyVolpianoSection i sec).1 := by
  unfold syllabifyVolpianoSection
  split
  · exact noLateBarline_single _ _
  · rename_i hns
    show noLateBarline ['3', '4'] ((findWords sec).map findSyls)
    intro j w hj hw s hs c hc
    have hwmem : w ∈ (findWords sec).map findSyls := List.getElem?_mem hw
    obtain ⟨ws, hws, rfl⟩ := List.mem_map.mp hwmem
    have hsmem : s ∈ findSyls ws := List.mem_of_mem_head? hs
    have hcs : c ∈ s := List.mem_of_mem_head? hc
    have h1 : c ∈ ws := findSyls_chars ws.length ws (Nat.le_refl _) s hsmem c hcs
    have h2 : c ∈ sec := findWords_chars sec.length sec (Nat.le_refl _) ws hws c h1
    rcases hd with hsp | hpure
    · exact absurd hsp hns
    · have h3 := hpure c h2
      intro hmem
      rcases List.mem_cons.mp hmem with rfl | hmem2
      · exact h3.1 rfl
      · simp only [List.mem_singleton] at hmem2
        exact h3.2 hmem2

/-- Every section list returned by `syllabify_volpiano` satisfies the
volpiano invariant, with no hypotheses on the input string. -/
theorem syllabifyVolpiano_inv (volp : List Char) :
    InvVol (syllabifyVolpiano volp).1 := by
  show InvVol (((volpianoSections volp).mapIdx
    fun i sec => syllabifyVolpianoSection i sec).map Prod.fst)
  intro sec hsec
  obtain ⟨pr, hpr, rfl⟩ := List.mem_map.mp hsec
  rw [List.mapIdx_eq_enum_map] at hpr
  obtain ⟨is, his, rfl⟩ := List.mem_map.mp hpr
  have hsmem : is.2 ∈ volpianoSections volp := List.snd_mem_of_mem_enum his
  unfold volpianoSections at hsmem
  have hsmem2 := List.mem_of_mem_filter hsmem
  have hdisj := volSplitAux_no34 volp.length [] volp (Nat.le_refl _) (by simp)
    is.2 hsmem2
  exact syllabifyVolpianoSection_noLate is.1 is.2 hdisj

/-- C3 (amended): the termination half of the claim is real — on any pair of
tokenizer outputs (`syllabify_text` and `syllabify_volpiano` results), the
`while` loop of `_infer_barlines` terminates within `|bt - bv|` iterations,
because each executed iteration strictly increases the barline count on the
deficient side (or exits by padding, `ValueError`, or `IndexError`).  The
modelled fuel `|bt - bv|` is therefore never exhausted: the
`repairNotConverged` marker is unreachable.  The claimed *explicit iteration
cap* does not exist in the code (see the counterexample, where the loop
instead dies with an `IndexError`). -/
theorem C3_amended (text volp : List Char) (cl p : Bool) (st : List TSec)
    (adj : Bool) (sv : List VSec) (impr : Bool)
    (h1 : syllabifyText text cl p = .ok (st, adj))
    (h2 : syllabifyVolpiano volp = (sv, impr)) :
    inferBarlines st sv ≠ .error .repairNotConverged := by
  have hIT := syllabifyText_inv h1
  have hIV : InvVol sv := by
    have h3 := syllabifyVolpiano_inv volp
    rw [h2] at h3
    exact h3
  exact inferBarlines_ne_rnc st sv hIT hIV

theorem C3_amended_witness :
    syllabifyText ['a'] false false = .ok ([[[['a']]]], false) ∧
    syllabifyVolpiano ['f'] = ([[[['f']]]], true) ∧
    inferBarlines [[[['a']]]] [[[['f']]]] ≠ .error .repairNotConverged :=
  ⟨by decide, by decide,
    C3_amended ['a'] ['f'] false false [[[['a']]]] false [[[['f']]]] true
      (by decide) (by decide)⟩

end VolpianoDisplay
